import Mathlib

/-!
# goworld / goacp.go : the ACP value codec and handshake

A shallow embedding of `goacp.go`.  The `Acp` value owns a `*bufio.ReadWriter`
over the process's standard streams; the embedding makes that state explicit:

* the underlying input file is the list of the reads it will still deliver
  (one list element per `read` call that returns data, in order);
* `bufio.Reader` adds its internal buffer and its pending error;
* `bufio.Writer` adds its internal buffer, and the underlying output file is
  the list of the writes it has received.

Conventions.  A byte is a `Fin 256`.  A Go `string` is the list of its bytes
(Go compares strings byte for byte).  Go's `int` is `Int` (it is taken to be 64
bits wide, so that `int(x)` of a `uint16` or `uint32` is exact); a value of type
`uint16`/`uint32` is a `Nat` reduced modulo `2^16`/`2^32` where it is produced.
`log.Printf`/`log.Println` write to the standard logger only and are left out;
`log.Fatal` ends the process and is recorded as the outcome `fatal`.
The only read failure of the underlying file that is modelled is end-of-file;
writes to the underlying file always succeed (the source drops every result of
`Write`, `WriteByte` and `Flush`).
-/

namespace Goworld

/-- One byte of a stream. -/
abbrev Byte := Fin 256

/-- Size of the buffers allocated by `bufio.NewReader` and `bufio.NewWriter`. -/
def defaultBufSize : Nat := 4096

/-- Errors that reach the codec: `io.EOF`, `io.ErrUnexpectedEOF`, and the
error built by `fmt.Errorf("Error reading short: %v\n", err)` in `readBytes`. -/
inductive RdErr where
  | EOF : RdErr
  | ErrUnexpectedEOF : RdErr
  | readingShort : RdErr → RdErr
  deriving DecidableEq

/-! ## The underlying input file (`os.Stdin`) -/

/-- Library `(*os.File).Read` on a buffer of `k > 0` bytes.  The file is the list of the
chunks still to be delivered.  A read returns the bytes of the first chunk that
fit; what does not fit stays first in line.  A read that gets no byte (no chunk
left, or an empty chunk) is reported by `os.File` as `io.EOF`. -/
def fileRead (k : Nat) : List (List Byte) → List Byte × Option RdErr × List (List Byte)
  | [] => ([], some RdErr.EOF, [])
  | c :: rest =>
    if c = [] then ([], some RdErr.EOF, rest)
    else (c.take k, none, if c.length ≤ k then rest else c.drop k :: rest)

/-! ## `bufio.Reader` -/

/-- State of a `bufio.Reader`: the underlying file `rd`, the buffered unread
bytes `buf` (the slice `b.buf[b.r:b.w]`) and the pending error `err`. -/
structure Reader where
  rd : List (List Byte)
  buf : List Byte
  err : Option RdErr
  deriving DecidableEq

/-- Library `(*bufio.Reader).Read(p)` with `len(p) = k`: the bytes stored at the start
of `p`, the error returned, and the new reader state.  At most one read of the
underlying file is made. -/
def Reader.Read (b : Reader) (k : Nat) : List Byte × Option RdErr × Reader :=
  if k = 0 then
    if 0 < b.buf.length then ([], none, b)
    else ([], b.err, { b with err := none })
  else if b.buf = [] then
    if b.err ≠ none then ([], b.err, { b with err := none })
    else if defaultBufSize ≤ k then
      -- large read, empty buffer: read directly into p
      match fileRead k b.rd with
      | (data, e, rd1) => (data, e, { rd := rd1, buf := [], err := none })
    else
      -- one read into the internal buffer
      match fileRead defaultBufSize b.rd with
      | (data, e, rd1) =>
        if data.length = 0 then ([], e, { rd := rd1, buf := [], err := none })
        else (data.take k, none, { rd := rd1, buf := data.drop k, err := e })
  else
    (b.buf.take k, none, { b with buf := b.buf.drop k })

/-- The loop of `io.ReadAtLeast(r, buf, min)` with `len(buf) = min`:
`for n < min && err == nil { nn, err = r.Read(buf[n:]); n += nn }`.
`need` is `min - n` and `acc` is `buf[:n]`.  The recursion is on `fuel`, one unit
per iteration; `none` means the fuel ran out. -/
def readAtLeastLoop : Nat → Reader → Nat → List Byte →
    Option (List Byte × Option RdErr × Reader)
  | 0, _, _, _ => none
  | fuel + 1, b, need, acc =>
    if need = 0 then some (acc, none, b)
    else
      match b.Read need with
      | (data, some e, b1) => some (acc ++ data, some e, b1)
      | (data, none, b1) => readAtLeastLoop fuel b1 (need - data.length) (acc ++ data)

/-- Library `io.ReadFull(r, buf)` with `len(buf) = n`, that is `io.ReadAtLeast(r, buf, n)`:
after the loop, `n >= min` clears the error and a non-empty short read at
end-of-file becomes `io.ErrUnexpectedEOF`.  Every iteration of the loop gets at
least one byte or an error, so `n + 1` units of fuel are enough. -/
def ReadFull (b : Reader) (n : Nat) : Option (List Byte × Option RdErr × Reader) :=
  match readAtLeastLoop (n + 1) b n [] with
  | none => none
  | some (got, e, b1) =>
    if n ≤ got.length then some (got, none, b1)
    else if 0 < got.length ∧ e = some RdErr.EOF then some (got, some RdErr.ErrUnexpectedEOF, b1)
    else some (got, e, b1)

/-! ## `bufio.Writer` and the underlying output file (`os.Stdout`) -/

/-- State of a `bufio.Writer`: `out` is the list of the writes the underlying
file has received, oldest first, and `buf` the bytes buffered and not yet
written (`b.buf[0:b.n]`). -/
structure Writer where
  out : List (List Byte)
  buf : List Byte
  deriving DecidableEq

/-- Library `b.Available()`. -/
def Writer.Available (w : Writer) : Nat := defaultBufSize - w.buf.length

/-- Library `(*bufio.Writer).Flush`: nothing to do on an empty buffer, otherwise one
write of the whole buffer to the underlying file. -/
def Writer.Flush (w : Writer) : Writer :=
  if w.buf.length = 0 then w else { out := w.out ++ [w.buf], buf := [] }

/-- Library `(*bufio.Writer).Write(p)`.  The loop `for len(p) > b.Available()` is
unrolled: on an empty buffer a large `p` is written directly in one write and
the loop ends; otherwise the buffer is filled and flushed, after which the
buffer is empty and the loop ends after at most one direct write. -/
def Writer.Write (w : Writer) (p : List Byte) : Writer :=
  if w.Available < p.length then
    if w.buf.length = 0 then { out := w.out ++ [p], buf := [] }
    else
      let w1 := Writer.Flush { w with buf := w.buf ++ p.take w.Available }
      let p1 := p.drop w.Available
      if w1.Available < p1.length then
        if w1.buf.length = 0 then { out := w1.out ++ [p1], buf := [] }
        else { w1 with buf := w1.buf ++ p1 }
      else { w1 with buf := w1.buf ++ p1 }
  else { w with buf := w.buf ++ p }

/-- Library `(*bufio.Writer).WriteByte(c)`: flush first when the buffer is full. -/
def Writer.WriteByte (w : Writer) (c : Byte) : Writer :=
  let w1 := if w.Available ≤ 0 then w.Flush else w
  { w1 with buf := w1.buf ++ [c] }

/-- Every byte handed to the writer so far, in order: what the underlying file
has received followed by what is still buffered. -/
def Writer.stream (w : Writer) : List Byte := w.out.flatten ++ w.buf

/-! ## `Acp` -/

/-- The `Acp` struct: `Name` and the `*bufio.ReadWriter` field `io`, here its
reader half `r` and its writer half `w`. -/
structure Acp where
  Name : List Byte
  r : Reader
  w : Writer
  deriving DecidableEq

/-- Source `NewAcp(name)` on a process whose standard input will deliver `stdin` and
whose standard output has received nothing yet. -/
def NewAcp (name : List Byte) (stdin : List (List Byte)) : Acp :=
  { Name := name, r := { rd := stdin, buf := [], err := none }, w := { out := [], buf := [] } }

/-- How a call that can end the process comes back: `ret v a` returns `v` in
state `a`; `fatal e a` is `log.Fatal(e)` (the process exits) in state `a`;
`hang` is the model running out of fuel. -/
inductive Outcome (α : Type) where
  | ret : α → Acp → Outcome α
  | fatal : RdErr → Acp → Outcome α
  | hang : Outcome α
  deriving DecidableEq

/-- Source `Flush` : `a.io.Flush()`. -/
def Acp.Flush (a : Acp) : Acp := { a with w := a.w.Flush }

/-- Source `Write` : `a.io.Write(buf)` then `a.Flush()`. -/
def Acp.Write (a : Acp) (buf : List Byte) : Acp :=
  Acp.Flush { a with w := a.w.Write buf }

/-- Source `PutBool` : the byte is 0 unless `!b`, then 1; `WriteByte` and `Flush`. -/
def Acp.PutBool (a : Acp) (b : Bool) : Acp :=
  let ival : Byte := if !b then 1 else 0
  Acp.Flush { a with w := a.w.WriteByte ival }

/-- Library `binary.LittleEndian.PutUint16(buf, v)` on a 2-byte buffer:
`buf[0] = byte(v)`, `buf[1] = byte(v >> 8)`. -/
def putUint16 (v : Nat) : List Byte :=
  [Fin.ofNat (v % 256), Fin.ofNat (v / 256 % 256)]

/-- Source `PutUshort` : encode into a 2-byte buffer and `Write` it. -/
def Acp.PutUshort (a : Acp) (short : Nat) : Acp :=
  a.Write (putUint16 short)

/-- Source `PutString` : `l := len(bytes)`, `PutUshort(uint16(l))`, `Write(bytes)`.
The conversion `uint16(l)` keeps the low 16 bits of `l`. -/
def Acp.PutString (a : Acp) (s : List Byte) : Acp :=
  let l := s.length
  (a.PutUshort (l % 65536)).Write s

/-- Source `readBytes(n)` : a buffer of capacity `n` (all zero), one `Read` into it
whose byte count is dropped; an error other than `io.EOF` is wrapped and
returned with the empty `buf`; otherwise `buf[:n]` is returned together with
the error of the read (nil or `io.EOF`). -/
def Acp.readBytes (a : Acp) (n : Nat) : List Byte × Option RdErr × Acp :=
  match a.r.Read n with
  | (data, err, r1) =>
    if err ≠ none ∧ err ≠ some RdErr.EOF then
      ([], err.map RdErr.readingShort, { a with r := r1 })
    else
      (data ++ List.replicate (n - data.length) 0, err, { a with r := r1 })

/-- Source `ReadNumber` : `binary.Read(a.io, binary.LittleEndian, data)` for a
fixed-size `data` of `n` bytes (one `io.ReadFull` of `n` bytes), then
`log.Fatal(err)` on error: the `n` bytes read, or the fatal error. -/
def Acp.ReadNumber (a : Acp) (n : Nat) : Outcome (List Byte) :=
  match ReadFull a.r n with
  | none => Outcome.hang
  | some (_, some e, r1) => Outcome.fatal e { a with r := r1 }
  | some (bs, none, r1) => Outcome.ret bs { a with r := r1 }

/-- Library `binary.LittleEndian.Uint16(bs)` : `bs[0] | bs[1] << 8`. -/
def uint16LE (bs : List Byte) : Nat :=
  (bs.getD 0 0).val + 256 * (bs.getD 1 0).val

/-- Library `binary.LittleEndian.Uint32(bs)`. -/
def uint32LE (bs : List Byte) : Nat :=
  (bs.getD 0 0).val + 256 * (bs.getD 1 0).val + 65536 * (bs.getD 2 0).val
    + 16777216 * (bs.getD 3 0).val

/-- Source `GetUshort` : `ReadNumber` into a `uint16`, returned as `int`. -/
def Acp.GetUshort (a : Acp) : Outcome Nat :=
  match a.ReadNumber 2 with
  | Outcome.ret bs a1 => Outcome.ret (uint16LE bs) a1
  | Outcome.fatal e a1 => Outcome.fatal e a1
  | Outcome.hang => Outcome.hang

/-- Source `GetShort` : `ReadNumber` into an `int16` (the 16 bits read as two's
complement), returned as `int`. -/
def Acp.GetShort (a : Acp) : Outcome Int :=
  match a.ReadNumber 2 with
  | Outcome.ret bs a1 =>
    Outcome.ret (if uint16LE bs < 32768 then (uint16LE bs : Int) else (uint16LE bs : Int) - 65536) a1
  | Outcome.fatal e a1 => Outcome.fatal e a1
  | Outcome.hang => Outcome.hang

/-- Source `GetUint` : `ReadNumber` into a `uint32`, returned as `int` (64 bits). -/
def Acp.GetUint (a : Acp) : Outcome Nat :=
  match a.ReadNumber 4 with
  | Outcome.ret bs a1 => Outcome.ret (uint32LE bs) a1
  | Outcome.fatal e a1 => Outcome.fatal e a1
  | Outcome.hang => Outcome.hang

/-- Source `GetString` : `b := GetUshort()`, `readBytes(b)`, `log.Fatal` when the
error returned by `readBytes` is not nil, else `string(buf)`. -/
def Acp.GetString (a : Acp) : Outcome (List Byte) :=
  match a.GetUshort with
  | Outcome.ret b a1 =>
    match a1.readBytes b with
    | (_, some e, a2) => Outcome.fatal e a2
    | (buf, none, a2) => Outcome.ret buf a2
  | Outcome.fatal e a1 => Outcome.fatal e a1
  | Outcome.hang => Outcome.hang

/-- Source `VerifyConnection` : `res := GetString() == name`, `PutBool(res)`,
return `res`. -/
def Acp.VerifyConnection (a : Acp) (name : List Byte) : Outcome Bool :=
  match a.GetString with
  | Outcome.ret acpName a1 =>
    let res := decide (acpName = name)
    Outcome.ret res (a1.PutBool res)
  | Outcome.fatal e a1 => Outcome.fatal e a1
  | Outcome.hang => Outcome.hang

/-- Source `EstablishProtocol` : the `for` body ends in an unconditional `break`, so it
runs once: read `in`; if `in < min || in > max` send `false`, `uint16(min)`,
`uint16(max)` and return false; otherwise send `true` and return true.
`uint16(x)` of an `int` keeps its low 16 bits. -/
def Acp.EstablishProtocol (a : Acp) (minProtocol maxProtocol : Int) : Outcome Bool :=
  let min := minProtocol
  let max := maxProtocol
  match a.GetUshort with
  | Outcome.ret inp a1 =>
    if (inp : Int) < min ∨ (inp : Int) > max then
      let a2 := a1.PutBool false
      let a3 := a2.PutUshort (min % 65536).toNat
      let a4 := a3.PutUshort (max % 65536).toNat
      Outcome.ret false a4
    else
      Outcome.ret true (a1.PutBool true)
  | Outcome.fatal e a1 => Outcome.fatal e a1
  | Outcome.hang => Outcome.hang

/-- Source `Connect` : the returned `err` is nil (`none`) or the text given to
`errors.New`. -/
def Acp.Connect (a : Acp) (processName : List Byte) (protocolMin protocolMax : Int) :
    Outcome (Option String) :=
  match a.VerifyConnection processName with
  | Outcome.ret res a1 =>
    if !res then Outcome.ret (some "Error verify connection") a1
    else
      match a1.EstablishProtocol protocolMin protocolMax with
      | Outcome.ret res2 a2 =>
        if !res2 then Outcome.ret (some "Error establish protocol") a2
        else Outcome.ret none a2
      | Outcome.fatal e a2 => Outcome.fatal e a2
      | Outcome.hang => Outcome.hang
  | Outcome.fatal e a1 => Outcome.fatal e a1
  | Outcome.hang => Outcome.hang

/-- How one pass through the body of a `for` loop ends: by `return v`, by
`break`, or by reaching the end of the body, after which the loop goes round
again. -/
inductive LoopExit where
  | returned : Bool → LoopExit
  | broke : LoopExit
  | next : LoopExit
  deriving DecidableEq

/-- Source `EstablishProtocol`, one pass through the body of its `for` loop:
read `in`; out of range, send `false`, `uint16(min)`, `uint16(max)` and
`return false`; otherwise `break`. -/
def Acp.EstablishProtocolBody (a : Acp) (min max : Int) : Outcome LoopExit :=
  match a.GetUshort with
  | Outcome.ret inp a1 =>
    if (inp : Int) < min ∨ (inp : Int) > max then
      let a2 := a1.PutBool false
      let a3 := a2.PutUshort (min % 65536).toNat
      let a4 := a3.PutUshort (max % 65536).toNat
      Outcome.ret (LoopExit.returned false) a4
    else
      Outcome.ret LoopExit.broke a1
  | Outcome.fatal e a1 => Outcome.fatal e a1
  | Outcome.hang => Outcome.hang

/-- Source `EstablishProtocol` with its `for` loop kept as a loop: the result
and the number of passes through the body.  After `break` the code sends `true`
and returns true.  The recursion is on `fuel`, one unit per pass; `passes`
counts the passes made so far. -/
def Acp.EstablishProtocolLoop : Nat → Acp → Int → Int → Nat → Outcome (Bool × Nat)
  | 0, _, _, _, _ => Outcome.hang
  | fuel + 1, a, min, max, passes =>
    match a.EstablishProtocolBody min max with
    | Outcome.ret (LoopExit.returned v) a1 => Outcome.ret (v, passes + 1) a1
    | Outcome.ret LoopExit.broke a1 => Outcome.ret (true, passes + 1) (a1.PutBool true)
    | Outcome.ret LoopExit.next a1 => Acp.EstablishProtocolLoop fuel a1 min max (passes + 1)
    | Outcome.fatal e a1 => Outcome.fatal e a1
    | Outcome.hang => Outcome.hang

/-- The reader will deliver exactly `bytes` and then end-of-file: no error is
pending, every read still to come from the file carries at least one byte, and
the buffered bytes followed by those reads are `bytes`.  How the bytes are cut
into reads is left free. -/
def Reader.Holds (b : Reader) (bytes : List Byte) : Prop :=
  b.err = none ∧ (∀ c ∈ b.rd, c ≠ []) ∧ b.buf ++ b.rd.flatten = bytes

instance (b : Reader) (bytes : List Byte) : Decidable (b.Holds bytes) := by
  unfold Reader.Holds; infer_instance

/-! ## Reading to completion -/

theorem take_length_le_drop_append (l1 l2 : List Byte) (k : Nat) :
    (l1 ++ l2).drop (l1.take k).length = l1.drop k ++ l2 := by
  rw [List.length_take]
  rcases Nat.le_total k l1.length with h | h
  · rw [Nat.min_eq_left h, List.drop_append_of_le_length h]
  · rw [Nat.min_eq_right h, List.drop_of_length_le h, List.drop_left]
    rfl

theorem take_length_take_append (l1 l2 : List Byte) (k : Nat) :
    (l1 ++ l2).take (l1.take k).length = l1.take k := by
  rw [List.length_take]
  rcases Nat.le_total k l1.length with h | h
  · rw [Nat.min_eq_left h, List.take_append_of_le_length h]
  · rw [Nat.min_eq_right h, List.take_of_length_le h, List.take_left]

theorem take_ne_nil_of_pos (l : List Byte) (k : Nat) (hk : 0 < k) (hl : l ≠ []) :
    l.take k ≠ [] := by
  cases l with
  | nil => exact absurd rfl hl
  | cons x xs =>
    cases k with
    | zero => omega
    | succ n => simp

theorem drop_ne_nil_of_lt (l : List Byte) (k : Nat) (hk : k < l.length) : l.drop k ≠ [] := by
  intro h
  have h2 := congrArg List.length h
  rw [List.length_drop, List.length_nil] at h2
  omega

/-- One `Read` of at least one byte on a reader that still holds at least one
byte: it returns a non-empty prefix of what the reader holds, without error,
and the reader then holds the rest. -/
theorem Reader.Read_of_Holds (b : Reader) (bytes : List Byte) (k : Nat)
    (hb : b.Holds bytes) (hk : 0 < k) (hne : bytes ≠ []) :
    ∃ data b1, b.Read k = (data, none, b1) ∧ data ≠ [] ∧ data.length ≤ k ∧
      data = bytes.take data.length ∧ b1.Holds (bytes.drop data.length) := by
  obtain ⟨herr, hchunks, hbytes⟩ := hb
  have hk0 : k ≠ 0 := by omega
  by_cases hbuf : b.buf = []
  · -- empty buffer: the file must still have a chunk
    rw [hbuf, List.nil_append] at hbytes
    cases hrd : b.rd with
    | nil => rw [hrd] at hbytes; exact absurd hbytes.symm hne
    | cons c rest =>
      rw [hrd] at hbytes hchunks
      have hc : c ≠ [] := hchunks c (List.mem_cons_self _ _)
      have hrest : ∀ x ∈ rest, x ≠ [] := fun x hx => hchunks x (List.mem_cons_of_mem _ hx)
      have hclen : 0 < c.length := List.length_pos.mpr hc
      rw [List.flatten_cons] at hbytes
      by_cases hbig : defaultBufSize ≤ k
      · refine ⟨c.take k, Reader.mk (if c.length ≤ k then rest else c.drop k :: rest) [] none, ?_, ?_, ?_, ?_, ?_⟩
        · simp [Reader.Read, hk0, hbuf, herr, hbig, hrd, fileRead, hc]
        · exact take_ne_nil_of_pos c k hk hc
        · simp
        · rw [← hbytes, take_length_take_append]
        · refine ⟨rfl, ?_, ?_⟩
          · intro x hx
            split at hx
            · exact hrest x hx
            · rcases List.mem_cons.mp hx with h | h
              · subst h
                exact drop_ne_nil_of_lt c _ (by omega)
              · exact hrest x h
          · rw [← hbytes, take_length_le_drop_append]
            split
            · rename_i h
              simp [List.drop_of_length_le h]
            · simp
      · have hsmall : k < defaultBufSize := by omega
        refine ⟨c.take k,
          Reader.mk (if c.length ≤ defaultBufSize then rest else c.drop defaultBufSize :: rest)
            ((c.take defaultBufSize).drop k) none, ?_, ?_, ?_, ?_, ?_⟩
        · have h1 : ¬ (c.take defaultBufSize).length = 0 := by
            intro h0
            exact take_ne_nil_of_pos c defaultBufSize (by decide) hc (List.length_eq_zero.mp h0)
          have h2 : (c.take defaultBufSize).take k = c.take k := by
            rw [List.take_take, Nat.min_eq_left (Nat.le_of_lt hsmall)]
          simp only [Reader.Read, hk0, hbuf, herr, hbig, hrd, fileRead, hc, if_false, if_true,
            ne_eq, not_true_eq_false, h1, h2]
        · exact take_ne_nil_of_pos c k hk hc
        · simp
        · rw [← hbytes, take_length_take_append]
        · refine ⟨rfl, ?_, ?_⟩
          · intro x hx
            split at hx
            · exact hrest x hx
            · rcases List.mem_cons.mp hx with h | h
              · subst h
                exact drop_ne_nil_of_lt c _ (by omega)
              · exact hrest x h
          · rw [← hbytes, take_length_le_drop_append]
            show (c.take defaultBufSize).drop k ++ List.flatten _ = _
            have hsplit : c.drop k = (c.take defaultBufSize).drop k ++ c.drop defaultBufSize := by
              conv_lhs => rw [← List.take_append_drop defaultBufSize c]
              rw [List.drop_append_eq_append_drop]
              have : k - (c.take defaultBufSize).length = 0 ∨ c.drop defaultBufSize = [] := by
                rcases Nat.le_total c.length defaultBufSize with h | h
                · right; exact List.drop_of_length_le h
                · left; rw [List.length_take, Nat.min_eq_left h]; omega
              rcases this with h | h
              · rw [h, List.drop_zero]
              · rw [h]; simp
            rw [hsplit]
            split
            · rename_i h
              simp [List.drop_of_length_le h]
            · simp
  · -- bytes are buffered: they are served first
    refine ⟨b.buf.take k, { b with buf := b.buf.drop k }, ?_, ?_, ?_, ?_, ?_⟩
    · simp [Reader.Read, hk0, hbuf]
    · exact take_ne_nil_of_pos b.buf k hk hbuf
    · simp
    · rw [← hbytes, take_length_take_append]
    · exact ⟨herr, hchunks, by rw [← hbytes, take_length_le_drop_append]⟩

/-- The loop of `io.ReadAtLeast` on a reader holding at least `need` bytes gets
exactly the first `need` of them, whatever the cut into reads. -/
theorem readAtLeastLoop_of_Holds (fuel : Nat) :
    ∀ (b : Reader) (bytes : List Byte) (need : Nat) (acc : List Byte),
      b.Holds bytes → need ≤ bytes.length → need < fuel →
      ∃ b1, readAtLeastLoop fuel b need acc = some (acc ++ bytes.take need, none, b1) ∧
        b1.Holds (bytes.drop need) := by
  induction fuel with
  | zero => intro b bytes need acc _ _ h; omega
  | succ f ih =>
    intro b bytes need acc hb hlen hfuel
    by_cases hz : need = 0
    · subst hz
      exact ⟨b, by simp [readAtLeastLoop], by simpa using hb⟩
    · have hne : bytes ≠ [] := by
        intro h; rw [h] at hlen; simp at hlen; exact hz hlen
      obtain ⟨data, b1, hread, hdne, hdk, hdata, hb1⟩ :=
        Reader.Read_of_Holds b bytes need hb (by omega) hne
      have hdpos : 0 < data.length := List.length_pos.mpr hdne
      have hlen1 : need - data.length ≤ (bytes.drop data.length).length := by
        rw [List.length_drop]; omega
      obtain ⟨b2, hloop, hb2⟩ :=
        ih b1 (bytes.drop data.length) (need - data.length) (acc ++ data) hb1 hlen1 (by omega)
      refine ⟨b2, ?_, ?_⟩
      · have htake : data ++ (bytes.drop data.length).take (need - data.length)
            = bytes.take need := by
          have h1 : bytes.take need
              = bytes.take data.length ++ (bytes.drop data.length).take (need - data.length) := by
            have h2 : need = data.length + (need - data.length) := by omega
            conv_lhs => rw [h2]
            exact List.take_add bytes data.length (need - data.length)
          rw [h1, ← hdata]
        simp only [readAtLeastLoop, hz, if_false, hread, hloop, List.append_assoc, htake]
      · have hdrop : (bytes.drop data.length).drop (need - data.length) = bytes.drop need := by
          rw [List.drop_drop]
          congr 1; omega
        rw [← hdrop]; exact hb2

/-- Fact: `io.ReadFull` on a reader holding at least `n` bytes returns the first `n`
of them without error and leaves the rest. -/
theorem ReadFull_of_Holds (b : Reader) (bytes : List Byte) (n : Nat)
    (hb : b.Holds bytes) (hn : n ≤ bytes.length) :
    ∃ b1, ReadFull b n = some (bytes.take n, none, b1) ∧ b1.Holds (bytes.drop n) := by
  obtain ⟨b1, hloop, hb1⟩ := readAtLeastLoop_of_Holds (n + 1) b bytes n [] hb hn (by omega)
  refine ⟨b1, ?_, hb1⟩
  have hl : n ≤ (bytes.take n).length := by rw [List.length_take]; omega
  simp [ReadFull, hloop, hl]

/-- Fact: `ReadNumber` of `n` bytes on a reader holding at least `n` bytes. -/
theorem Acp.ReadNumber_of_Holds (a : Acp) (bytes : List Byte) (n : Nat)
    (hb : a.r.Holds bytes) (hn : n ≤ bytes.length) :
    ∃ a1, a.ReadNumber n = Outcome.ret (bytes.take n) a1 ∧ a1.r.Holds (bytes.drop n) ∧
      a1.w = a.w ∧ a1.Name = a.Name := by
  obtain ⟨b1, hfull, hb1⟩ := ReadFull_of_Holds a.r bytes n hb hn
  exact ⟨{ a with r := b1 }, by simp [Acp.ReadNumber, hfull], hb1, rfl, rfl⟩

/-- Fact: `GetUshort` on a reader holding `b0, b1` and then `tl` returns
`b0 + 256 * b1` and leaves `tl`, whatever the cut into reads. -/
theorem Acp.GetUshort_of_Holds (a : Acp) (b0 b1 : Byte) (tl : List Byte)
    (hb : a.r.Holds (b0 :: b1 :: tl)) :
    ∃ a1, a.GetUshort = Outcome.ret (b0.val + 256 * b1.val) a1 ∧ a1.r.Holds tl ∧
      a1.w = a.w ∧ a1.Name = a.Name := by
  obtain ⟨a1, hnum, hb1, hw, hname⟩ :=
    Acp.ReadNumber_of_Holds a (b0 :: b1 :: tl) 2 hb (by simp)
  refine ⟨a1, ?_, by simpa using hb1, hw, hname⟩
  simp [Acp.GetUshort, hnum, uint16LE]

/-- Decoding the two bytes of `putUint16 v` gives `v` back for a 16-bit `v`. -/
theorem uint16LE_putUint16 (v : Nat) (hv : v < 65536) : uint16LE (putUint16 v) = v := by
  simp only [uint16LE, putUint16, List.getD_cons_zero, List.getD_cons_succ, Fin.ofNat, Fin.val_mk]
  omega

/-! ## The reading loop never runs out of fuel -/

/-- Every `Read` of at least one byte makes progress: it returns an error or at
least one byte. -/
theorem Reader.Read_progress (b : Reader) (k : Nat) (hk : k ≠ 0) :
    (b.Read k).2.1 ≠ none ∨ (b.Read k).1 ≠ [] := by
  by_cases hbuf : b.buf = []
  · by_cases herr : b.err = none
    · cases hrd : b.rd with
      | nil =>
        left
        by_cases hbig : defaultBufSize ≤ k <;>
          simp [Reader.Read, hk, hbuf, herr, hbig, hrd, fileRead]
      | cons c rest =>
        by_cases hc : c = []
        · left
          by_cases hbig : defaultBufSize ≤ k <;>
            simp [Reader.Read, hk, hbuf, herr, hbig, hrd, fileRead, hc]
        · right
          have hk0 : 0 < k := Nat.pos_of_ne_zero hk
          have h1 : ¬ (c.take defaultBufSize).length = 0 := by
            intro h0
            exact take_ne_nil_of_pos c defaultBufSize (by decide) hc (List.length_eq_zero.mp h0)
          by_cases hbig : defaultBufSize ≤ k
          · simp only [Reader.Read, hk, hbuf, herr, hbig, hrd, fileRead, hc, if_false, if_true,
              ne_eq, not_true_eq_false]
            exact take_ne_nil_of_pos c k hk0 hc
          · simp only [Reader.Read, hk, hbuf, herr, hbig, hrd, fileRead, hc, if_false, if_true,
              ne_eq, not_true_eq_false, h1]
            rw [List.take_take]
            exact take_ne_nil_of_pos c _ (by simp only [defaultBufSize]; omega) hc
    · left
      simp [Reader.Read, hk, hbuf, herr]
  · right
    simp only [Reader.Read, hk, hbuf, if_false]
    exact take_ne_nil_of_pos b.buf k (Nat.pos_of_ne_zero hk) hbuf

/-- With more fuel than bytes still needed the loop of `io.ReadAtLeast` ends. -/
theorem readAtLeastLoop_isSome (fuel : Nat) :
    ∀ (b : Reader) (need : Nat) (acc : List Byte), need < fuel →
      (readAtLeastLoop fuel b need acc).isSome = true := by
  induction fuel with
  | zero => intro b need acc h; omega
  | succ f ih =>
    intro b need acc hfuel
    by_cases hz : need = 0
    · simp [readAtLeastLoop, hz]
    · have hprog := Reader.Read_progress b need hz
      rcases hread : b.Read need with ⟨data, e, b1⟩
      rw [hread] at hprog
      cases e with
      | some err => simp [readAtLeastLoop, hz, hread]
      | none =>
        have hdne : data ≠ [] := by
          rcases hprog with h | h
          · exact absurd rfl h
          · exact h
        have hdpos : 0 < data.length := List.length_pos.mpr hdne
        simp only [readAtLeastLoop, hz, if_false, hread]
        exact ih b1 (need - data.length) (acc ++ data) (by omega)

/-- Fact: `io.ReadFull` always comes back. -/
theorem ReadFull_isSome (b : Reader) (n : Nat) : (ReadFull b n).isSome = true := by
  have h := readAtLeastLoop_isSome (n + 1) b n [] (by omega)
  unfold ReadFull
  rcases hloop : readAtLeastLoop (n + 1) b n [] with _ | ⟨got, e, b1⟩
  · rw [hloop] at h; cases h
  · simp only []
    split
    · rfl
    · split <;> rfl

/-- Fact: `ReadNumber` returns or ends the process; it never hangs. -/
theorem Acp.ReadNumber_ne_hang (a : Acp) (n : Nat) : a.ReadNumber n ≠ Outcome.hang := by
  have h := ReadFull_isSome a.r n
  unfold Acp.ReadNumber
  rcases hfull : ReadFull a.r n with _ | ⟨bs, e, r1⟩
  · rw [hfull] at h; cases h
  · cases e <;> simp

/-! ## Writing -/

theorem Writer.Flush_buf (w : Writer) : w.Flush.buf = [] := by
  unfold Writer.Flush
  split
  · rename_i h; exact List.length_eq_zero.mp h
  · rfl

theorem Writer.Flush_out (w : Writer) : w.Flush.out.flatten = w.stream := by
  unfold Writer.Flush Writer.stream
  split
  · rename_i h; simp [List.length_eq_zero.mp h]
  · simp

theorem Writer.Flush_stream (w : Writer) : w.Flush.stream = w.stream := by
  rw [Writer.stream, Writer.Flush_buf, List.append_nil, Writer.Flush_out]

theorem Writer.Write_stream (w : Writer) (p : List Byte) :
    (w.Write p).stream = w.stream ++ p := by
  unfold Writer.Write
  split
  · split
    · rename_i h; simp [Writer.stream, List.length_eq_zero.mp h]
    · have hfl : ∀ w1 : Writer, w1.Flush.stream = w1.stream := Writer.Flush_stream
      have key : (Writer.Flush { w with buf := w.buf ++ p.take w.Available }).stream
          ++ p.drop w.Available = w.stream ++ p := by
        rw [hfl]
        simp only [Writer.stream, List.append_assoc, List.take_append_drop]
      simp only []
      split
      · split
        · rename_i h
          rw [← key]
          simp [Writer.stream, List.length_eq_zero.mp h]
        · rw [← key]; simp [Writer.stream]
      · rw [← key]; simp [Writer.stream]
  · simp [Writer.stream]

theorem Writer.WriteByte_stream (w : Writer) (c : Byte) :
    (w.WriteByte c).stream = w.stream ++ [c] := by
  unfold Writer.WriteByte
  simp only []
  split
  · have := Writer.Flush_stream w
    simp only [Writer.stream] at this ⊢
    rw [← List.append_assoc, this]
  · simp [Writer.stream]

/-- Fact: `Write` leaves nothing buffered and the file has received every byte handed
to the writer so far followed by `buf`; the reader is untouched. -/
theorem Acp.Write_spec (a : Acp) (buf : List Byte) :
    (a.Write buf).w.out.flatten = a.w.stream ++ buf ∧ (a.Write buf).w.buf = [] ∧
      (a.Write buf).r = a.r ∧ (a.Write buf).Name = a.Name := by
  refine ⟨?_, ?_, rfl, rfl⟩
  · show (a.w.Write buf).Flush.out.flatten = _
    rw [Writer.Flush_out, Writer.Write_stream]
  · exact Writer.Flush_buf _

/-- Fact: `PutBool b` leaves nothing buffered and the file has received every byte
handed to the writer so far followed by the one byte 0 (for true) or 1 (for
false); the reader is untouched. -/
theorem Acp.PutBool_spec (a : Acp) (b : Bool) :
    (a.PutBool b).w.out.flatten = a.w.stream ++ [if b then 0 else 1] ∧
      (a.PutBool b).w.buf = [] ∧ (a.PutBool b).r = a.r ∧ (a.PutBool b).Name = a.Name := by
  refine ⟨?_, ?_, rfl, rfl⟩
  · show (a.w.WriteByte _).Flush.out.flatten = _
    rw [Writer.Flush_out, Writer.WriteByte_stream]
    cases b <;> rfl
  · exact Writer.Flush_buf _

/-- A writer with nothing buffered has handed over exactly what the file
received. -/
theorem Writer.stream_of_buf_nil (w : Writer) (h : w.buf = []) : w.stream = w.out.flatten := by
  simp [Writer.stream, h]

/-- Fact: `PutUshort v` : as `Write` of the two bytes of `v`. -/
theorem Acp.PutUshort_spec (a : Acp) (v : Nat) :
    (a.PutUshort v).w.out.flatten = a.w.stream ++ putUint16 v ∧ (a.PutUshort v).w.buf = [] ∧
      (a.PutUshort v).r = a.r ∧ (a.PutUshort v).Name = a.Name :=
  Acp.Write_spec a (putUint16 v)

/-- Fact: `PutString s` : the two bytes of `len(s) mod 2^16`, then all of `s`. -/
theorem Acp.PutString_spec (a : Acp) (s : List Byte) :
    (a.PutString s).w.out.flatten = a.w.stream ++ putUint16 (s.length % 65536) ++ s ∧
      (a.PutString s).w.buf = [] ∧ (a.PutString s).r = a.r ∧ (a.PutString s).Name = a.Name := by
  obtain ⟨h1, h2, h3, h4⟩ := Acp.PutUshort_spec a (s.length % 65536)
  obtain ⟨k1, k2, k3, k4⟩ := Acp.Write_spec (a.PutUshort (s.length % 65536)) s
  refine ⟨?_, k2, k3.trans h3, k4.trans h4⟩
  show ((a.PutUshort (s.length % 65536)).Write s).w.out.flatten = _
  rw [k1, Writer.stream_of_buf_nil _ h2, h1]

/-! ## The writes of `PutString` read back -/

/-- On a writer that has written nothing, `PutString s` makes one write of the
two prefix bytes and, unless `s` is empty, one write of the whole of `s`. -/
theorem Acp.PutString_fresh_out (name : List Byte) (s : List Byte) :
    ((NewAcp name []).PutString s).w.out
      = putUint16 (s.length % 65536) :: (if s = [] then [] else [s]) := by
  have h1 : ((NewAcp name []).PutUshort (s.length % 65536)).w
      = { out := [putUint16 (s.length % 65536)], buf := [] } := by
    simp [Acp.PutUshort, Acp.Write, Acp.Flush, Writer.Write, Writer.Flush, Writer.Available,
      NewAcp, putUint16, defaultBufSize]
  show (((NewAcp name []).PutUshort (s.length % 65536)).w.Write s).Flush.out = _
  rw [h1]
  by_cases hs : s = []
  · subst hs
    simp [Writer.Write, Writer.Flush, Writer.Available, defaultBufSize]
  · have hpos : s.length ≠ 0 := fun h => hs (List.length_eq_zero.mp h)
    by_cases hbig : defaultBufSize < s.length
    · simp [Writer.Write, Writer.Flush, Writer.Available, hbig, hs]
    · simp [Writer.Write, Writer.Flush, Writer.Available, hbig, hs, hpos]

/-- Fact: `GetUshort` when the next read of the file delivers exactly two bytes. -/
theorem Acp.GetUshort_two (name : List Byte) (p0 p1 : Byte) (rest : List (List Byte))
    (w : Writer) :
    Acp.GetUshort { Name := name, r := { rd := [p0, p1] :: rest, buf := [], err := none }, w := w }
      = Outcome.ret (p0.val + 256 * p1.val)
          { Name := name, r := { rd := rest, buf := [], err := none }, w := w } := by
  simp [Acp.GetUshort, Acp.ReadNumber, ReadFull, readAtLeastLoop, Reader.Read, fileRead,
    defaultBufSize, uint16LE]

/-- Fact: `readBytes(len(s))` when the next read of the file delivers exactly `s`
(no read at all is delivered for the empty `s`). -/
theorem Acp.readBytes_whole (name : List Byte) (s : List Byte) (rest : List (List Byte))
    (w : Writer) :
    Acp.readBytes
        { Name := name, r := { rd := (if s = [] then [] else [s]) ++ rest, buf := [], err := none },
          w := w }
        s.length
      = (s, none, { Name := name, r := { rd := rest, buf := [], err := none }, w := w }) := by
  by_cases hs : s = []
  · subst hs
    simp [Acp.readBytes, Reader.Read]
  · have hpos : s.length ≠ 0 := fun h => hs (List.length_eq_zero.mp h)
    by_cases hbig : defaultBufSize ≤ s.length
    · simp [Acp.readBytes, Reader.Read, fileRead, hs, hpos, hbig]
    · have hle : s.length ≤ defaultBufSize := by omega
      simp [Acp.readBytes, Reader.Read, fileRead, hs, hpos, hbig, List.take_of_length_le hle, hle]

/-- The value read by `GetUshort` from the two bytes of `putUint16 v`. -/
theorem putUint16_val (v : Nat) (hv : v < 65536) :
    ((Fin.ofNat (v % 256) : Byte)).val + 256 * ((Fin.ofNat (v / 256 % 256) : Byte)).val = v := by
  simp only [Fin.ofNat, Fin.val_mk]
  omega

/-! ## Reading leaves the writer alone -/

theorem Acp.ReadNumber_w (a : Acp) (n : Nat) (bs : List Byte) (a1 : Acp)
    (h : a.ReadNumber n = Outcome.ret bs a1) : a1.w = a.w ∧ a1.Name = a.Name := by
  unfold Acp.ReadNumber at h
  split at h
  · cases h
  · cases h
  · cases h; exact ⟨rfl, rfl⟩

theorem Acp.GetUshort_w (a : Acp) (v : Nat) (a1 : Acp)
    (h : a.GetUshort = Outcome.ret v a1) : a1.w = a.w ∧ a1.Name = a.Name := by
  unfold Acp.GetUshort at h
  split at h
  · rename_i bs a0 hnum
    cases h
    exact Acp.ReadNumber_w a 2 bs _ hnum
  · cases h
  · cases h

theorem Acp.readBytes_w (a : Acp) (n : Nat) :
    (a.readBytes n).2.2.w = a.w ∧ (a.readBytes n).2.2.Name = a.Name := by
  unfold Acp.readBytes
  split
  split <;> exact ⟨rfl, rfl⟩

theorem Acp.GetString_w (a : Acp) (s : List Byte) (a1 : Acp)
    (h : a.GetString = Outcome.ret s a1) : a1.w = a.w ∧ a1.Name = a.Name := by
  unfold Acp.GetString at h
  split at h
  · rename_i b a0 hget
    have h0 := Acp.GetUshort_w a b a0 hget
    have h1 := Acp.readBytes_w a0 b
    split at h
    · cases h
    · rename_i buf a2 hrb
      cases h
      rw [hrb] at h1
      exact ⟨h1.1.trans h0.1, h1.2.trans h0.2⟩
  · cases h
  · cases h

/-! ## The codec -/

/-- C1. UInt16 round trip: for every `v` in [0, 65535], when the reader holds the
bytes written by `PutUshort v` followed by any further bytes `tl` (however they
are cut into reads), `GetUshort` returns exactly `v`, and afterwards the reader
holds exactly `tl`: those two bytes, and no others, were consumed. -/
theorem GetUshort_PutUshort_roundtrip (v : Nat) (hv : v < 65536) (a : Acp) (tl : List Byte)
    (hin : a.r.Holds (((NewAcp [] []).PutUshort v).w.out.flatten ++ tl)) :
    ∃ a1, a.GetUshort = Outcome.ret v a1 ∧ a1.r.Holds tl ∧ a1.w = a.w := by
  have hout : ((NewAcp [] []).PutUshort v).w.out.flatten = putUint16 v := by
    have h := (Acp.PutUshort_spec (NewAcp [] []) v).1
    simpa [NewAcp, Writer.stream] using h
  rw [hout] at hin
  obtain ⟨a1, hget, hholds, hw, _⟩ :=
    Acp.GetUshort_of_Holds a (Fin.ofNat (v % 256)) (Fin.ofNat (v / 256 % 256)) tl hin
  rw [putUint16_val v hv] at hget
  exact ⟨a1, hget, hholds, hw⟩

theorem GetUshort_PutUshort_roundtrip_witness :
    (513 < 65536 ∧
      Reader.Holds (NewAcp [] [[1], [2, 7]]).r (((NewAcp [] []).PutUshort 513).w.out.flatten ++ [7])) ∧
    ∃ a1, (NewAcp [] [[1], [2, 7]]).GetUshort = Outcome.ret 513 a1 ∧ a1.r.Holds [7] ∧
      a1.w = (NewAcp [] [[1], [2, 7]]).w :=
  ⟨⟨by decide, by decide⟩,
    GetUshort_PutUshort_roundtrip 513 (by decide) (NewAcp [] [[1], [2, 7]]) [7] (by decide)⟩

/-- Fact: one delivery under which the string round trip works.  For every byte
sequence `s` of at most 65535 bytes (the empty one included), when the writes
made by `PutString s` are the next reads of the input, each write arriving as
exactly one read, `GetString` returns `s` and leaves the reads that follow
untouched.  Other cuts of the same bytes are not read back. -/
theorem GetString_PutString_roundtrip (s : List Byte) (hs : s.length ≤ 65535)
    (name : List Byte) (rest : List (List Byte)) :
    (NewAcp name (((NewAcp name []).PutString s).w.out ++ rest)).GetString
      = Outcome.ret s (NewAcp name rest) := by
  have hL : s.length % 65536 = s.length := Nat.mod_eq_of_lt (by omega)
  have hv := putUint16_val s.length (by omega)
  rw [Acp.PutString_fresh_out, hL]
  simp only [NewAcp, putUint16, List.cons_append, Acp.GetString]
  rw [Acp.GetUshort_two, hv]
  simp only [Acp.readBytes_whole]

theorem GetString_PutString_roundtrip_witness :
    ([72, 79, 83, 84] : List Byte).length ≤ 65535 ∧
    (NewAcp [] (((NewAcp [] []).PutString [72, 79, 83, 84]).w.out ++ [[2, 0]])).GetString
      = Outcome.ret [72, 79, 83, 84] (NewAcp [] [[2, 0]]) :=
  ⟨by decide, GetString_PutString_roundtrip [72, 79, 83, 84] (by decide) [] [[2, 0]]⟩

/-- C3. Bool mapping: `PutBool(true)` sends exactly the one byte 0x00 and
`PutBool(false)` exactly the one byte 0x01: after the call nothing is left
buffered and the output file has received every byte handed to the writer
before, followed by that single byte and nothing else. -/
theorem PutBool_mapping (a : Acp) :
    ((a.PutBool true).w.out.flatten = a.w.stream ++ [0] ∧ (a.PutBool true).w.buf = []) ∧
    ((a.PutBool false).w.out.flatten = a.w.stream ++ [1] ∧ (a.PutBool false).w.buf = []) := by
  obtain ⟨h1, h2, _, _⟩ := Acp.PutBool_spec a true
  obtain ⟨k1, k2, _, _⟩ := Acp.PutBool_spec a false
  exact ⟨⟨by simpa using h1, h2⟩, ⟨by simpa using k1, k2⟩⟩

/-- C4, the claim as stated fails: `PutString` has no failure result, and a string
of 65536 bytes is not rejected: on an output that has received nothing,
`PutString` makes two writes, the prefix bytes 00 00 and then all 65536 bytes. -/
theorem PutString_overlong_not_rejected :
    65535 < (List.replicate 65536 (0 : Byte)).length ∧
    ((NewAcp [] []).PutString (List.replicate 65536 0)).w.out
      = [[0, 0], List.replicate 65536 0] ∧
    ((NewAcp [] []).PutString (List.replicate 65536 0)).w.out ≠ (NewAcp [] []).w.out := by
  have hne : List.replicate 65536 (0 : Byte) ≠ [] := by
    intro h
    have h2 := congrArg List.length h
    rw [List.length_replicate] at h2
    exact absurd h2 (by decide)
  have hout : ((NewAcp [] []).PutString (List.replicate 65536 0)).w.out
      = [[0, 0], List.replicate 65536 0] := by
    rw [Acp.PutString_fresh_out, if_neg hne, List.length_replicate]
    rfl
  refine ⟨by rw [List.length_replicate]; decide, hout, ?_⟩
  rw [hout]
  exact List.cons_ne_nil _ _

/-- C4, amended. `PutString` does not reject over-long strings: for every string
`s` of more than 65535 bytes the call returns, nothing is left buffered, and the
output file has received every byte handed to the writer before, followed by
two prefix bytes and then all the bytes of `s`. -/
theorem PutString_overlong_written (a : Acp) (s : List Byte) (hs : 65535 < s.length) :
    ∃ p : List Byte, p.length = 2 ∧
      (a.PutString s).w.out.flatten = a.w.stream ++ p ++ s ∧ (a.PutString s).w.buf = [] ∧
      a.w.stream.length < (a.PutString s).w.out.flatten.length := by
  obtain ⟨h1, h2, _, _⟩ := Acp.PutString_spec a s
  refine ⟨putUint16 (s.length % 65536), rfl, h1, h2, ?_⟩
  rw [h1]
  simp only [List.length_append]
  omega

theorem PutString_overlong_written_witness :
    65535 < (List.replicate 65536 (0 : Byte)).length ∧
    ∃ p : List Byte, p.length = 2 ∧
      ((NewAcp [] []).PutString (List.replicate 65536 0)).w.out.flatten
        = (NewAcp [] []).w.stream ++ p ++ List.replicate 65536 0 ∧
      ((NewAcp [] []).PutString (List.replicate 65536 0)).w.buf = [] ∧
      (NewAcp [] []).w.stream.length
        < ((NewAcp [] []).PutString (List.replicate 65536 0)).w.out.flatten.length :=
  ⟨by simp only [List.length_replicate]; decide,
    PutString_overlong_written (NewAcp [] []) (List.replicate 65536 0)
      (by simp only [List.length_replicate]; decide)⟩

/-- C5, the code at the failing input: the input is the prefix 2 followed by the
single byte 0x61 and then end-of-file.  `GetString` does not fail: it returns
the two-byte string 0x61 0x00, whose second byte was never on the input. -/
theorem GetString_premature_eof_padded :
    (NewAcp [] [[2, 0, 97]]).GetString = Outcome.ret [97, 0] (NewAcp [] []) := by
  decide

/-- C6, the code at the failing input: the input is the prefix 2 followed by the
bytes 0x61 0x62, delivered in three reads (prefix, 0x61, 0x62).  `GetString`
returns 0x61 0x00 and leaves the read of 0x62 unconsumed, while the same bytes
delivered with the payload in one read give 0x61 0x62. -/
theorem GetString_short_read_not_retried :
    (NewAcp [] [[2, 0], [97], [98]]).GetString = Outcome.ret [97, 0] (NewAcp [] [[98]]) ∧
    (NewAcp [] [[2, 0], [97, 98]]).GetString = Outcome.ret [97, 98] (NewAcp [] []) := by
  decide

/-! ## The handshake -/

/-- C7. `VerifyConnection` result and reply: for every expected `name` and every
input from which `GetString` decodes a peer name `acpName`, `VerifyConnection`
returns whether `acpName` equals `name` byte for byte and sends exactly one
byte, 0x00 when they are equal and 0x01 when they are not.  Nothing is left
buffered and no input beyond the decoded string is consumed. -/
theorem VerifyConnection_result_and_reply (a : Acp) (name acpName : List Byte) (a1 : Acp)
    (hget : a.GetString = Outcome.ret acpName a1) :
    ∃ a2, a.VerifyConnection name = Outcome.ret (decide (acpName = name)) a2 ∧
      a2.w.out.flatten = a.w.stream ++ [if acpName = name then 0 else 1] ∧
      a2.w.buf = [] ∧ a2.r = a1.r := by
  obtain ⟨hw, _⟩ := Acp.GetString_w a acpName a1 hget
  obtain ⟨h1, h2, h3, _⟩ := Acp.PutBool_spec a1 (decide (acpName = name))
  refine ⟨a1.PutBool (decide (acpName = name)), ?_, ?_, h2, h3⟩
  · simp only [Acp.VerifyConnection, hget]
  · rw [h1, hw]
    by_cases h : acpName = name <;> simp [h]

theorem VerifyConnection_result_and_reply_witness :
    ((NewAcp [] [[4, 0], [72, 79, 83, 84]]).GetString
        = Outcome.ret [72, 79, 83, 84] (NewAcp [] [])) ∧
    ∃ a2, (NewAcp [] [[4, 0], [72, 79, 83, 84]]).VerifyConnection [72, 79, 83, 84]
        = Outcome.ret (decide (([72, 79, 83, 84] : List Byte) = [72, 79, 83, 84])) a2 ∧
      a2.w.out.flatten = (NewAcp [] [[4, 0], [72, 79, 83, 84]]).w.stream
        ++ [if ([72, 79, 83, 84] : List Byte) = [72, 79, 83, 84] then 0 else 1] ∧
      a2.w.buf = [] ∧ a2.r = (NewAcp [] []).r :=
  ⟨by decide,
    VerifyConnection_result_and_reply (NewAcp [] [[4, 0], [72, 79, 83, 84]]) [72, 79, 83, 84]
      [72, 79, 83, 84] (NewAcp [] []) (by decide)⟩

/-- C8. Protocol accepted in range: for every `min`, `max` and every version `p`
proposed by the peer (its two little-endian bytes are the next bytes of the
input, however cut into reads) with `min ≤ p ≤ max`, both ends included,
`EstablishProtocol min max` returns true and sends exactly one byte, 0x00, and
nothing else; only the two bytes of `p` are consumed. -/
theorem EstablishProtocol_accepts_in_range (a : Acp) (min max : Int) (p : Nat)
    (hp : p < 65536) (tl : List Byte) (hin : a.r.Holds (putUint16 p ++ tl))
    (hlo : min ≤ (p : Int)) (hhi : (p : Int) ≤ max) :
    ∃ a2, a.EstablishProtocol min max = Outcome.ret true a2 ∧
      a2.w.out.flatten = a.w.stream ++ [0] ∧ a2.w.buf = [] ∧ a2.r.Holds tl := by
  obtain ⟨a1, hget, hholds, hw, _⟩ :=
    Acp.GetUshort_of_Holds a (Fin.ofNat (p % 256)) (Fin.ofNat (p / 256 % 256)) tl hin
  rw [putUint16_val p hp] at hget
  obtain ⟨h1, h2, h3, _⟩ := Acp.PutBool_spec a1 true
  have hcond : ¬ ((p : Int) < min ∨ (p : Int) > max) := by omega
  refine ⟨a1.PutBool true, ?_, ?_, h2, ?_⟩
  · simp only [Acp.EstablishProtocol, hget, hcond, if_false]
  · rw [h1, hw]; rfl
  · rw [h3]; exact hholds

theorem EstablishProtocol_accepts_in_range_witness :
    (2 < 65536 ∧ Reader.Holds (NewAcp [] [[2], [0, 9]]).r (putUint16 2 ++ [9]) ∧
      (1 : Int) ≤ ((2 : Nat) : Int) ∧ ((2 : Nat) : Int) ≤ (3 : Int)) ∧
    ∃ a2, (NewAcp [] [[2], [0, 9]]).EstablishProtocol 1 3 = Outcome.ret true a2 ∧
      a2.w.out.flatten = (NewAcp [] [[2], [0, 9]]).w.stream ++ [0] ∧ a2.w.buf = [] ∧
      a2.r.Holds [9] :=
  ⟨⟨by decide, by decide, by decide, by decide⟩,
    EstablishProtocol_accepts_in_range (NewAcp [] [[2], [0, 9]]) 1 3 2 (by decide) [9]
      (by decide) (by decide) (by decide)⟩

/-- C9. Protocol rejected out of range: for every `min`, `max` in [0, 65535] and
every version `p` proposed by the peer with `p < min` or `p > max`,
`EstablishProtocol min max` returns false and sends exactly 5 bytes in this
order: 0x01, the low and high byte of `min`, the low and high byte of `max`;
only the two bytes of `p` are consumed. -/
theorem EstablishProtocol_rejects_out_of_range (a : Acp) (min max : Nat)
    (hmin : min ≤ 65535) (hmax : max ≤ 65535) (p : Nat) (hp : p < 65536) (tl : List Byte)
    (hin : a.r.Holds (putUint16 p ++ tl)) (hout : p < min ∨ p > max) :
    ∃ a2, a.EstablishProtocol (min : Int) (max : Int) = Outcome.ret false a2 ∧
      a2.w.out.flatten = a.w.stream ++ [1, Fin.ofNat (min % 256), Fin.ofNat (min / 256),
        Fin.ofNat (max % 256), Fin.ofNat (max / 256)] ∧
      a2.w.buf = [] ∧ a2.r.Holds tl := by
  obtain ⟨a1, hget, hholds, hw, _⟩ :=
    Acp.GetUshort_of_Holds a (Fin.ofNat (p % 256)) (Fin.ofNat (p / 256 % 256)) tl hin
  rw [putUint16_val p hp] at hget
  have hcond : ((p : Int) < (min : Int) ∨ (p : Int) > (max : Int)) := by omega
  have hmn : ((min : Int) % 65536).toNat = min := by omega
  have hmx : ((max : Int) % 65536).toNat = max := by omega
  obtain ⟨h1, h2, h3, _⟩ := Acp.PutBool_spec a1 false
  obtain ⟨k1, k2, k3, _⟩ := Acp.PutUshort_spec (a1.PutBool false) min
  obtain ⟨l1, l2, l3, _⟩ := Acp.PutUshort_spec ((a1.PutBool false).PutUshort min) max
  have hdmin : min / 256 % 256 = min / 256 := Nat.mod_eq_of_lt (by omega)
  have hdmax : max / 256 % 256 = max / 256 := Nat.mod_eq_of_lt (by omega)
  refine ⟨((a1.PutBool false).PutUshort min).PutUshort max, ?_, ?_, l2, ?_⟩
  · simp only [Acp.EstablishProtocol, hget, hcond, if_true, hmn, hmx]
  · rw [l1, Writer.stream_of_buf_nil _ k2, k1, Writer.stream_of_buf_nil _ h2, h1, hw]
    simp [putUint16, hdmin, hdmax]
  · rw [l3, k3, h3]; exact hholds

theorem EstablishProtocol_rejects_out_of_range_witness :
    (1 ≤ 65535 ∧ 3 ≤ 65535 ∧ 5 < 65536 ∧
      Reader.Holds (NewAcp [] [[5, 0]]).r (putUint16 5 ++ []) ∧ (5 < 1 ∨ 5 > 3)) ∧
    ∃ a2, (NewAcp [] [[5, 0]]).EstablishProtocol ((1 : Nat) : Int) ((3 : Nat) : Int)
        = Outcome.ret false a2 ∧
      a2.w.out.flatten = (NewAcp [] [[5, 0]]).w.stream ++ [1, Fin.ofNat (1 % 256),
        Fin.ofNat (1 / 256), Fin.ofNat (3 % 256), Fin.ofNat (3 / 256)] ∧
      a2.w.buf = [] ∧ a2.r.Holds [] :=
  ⟨⟨by decide, by decide, by decide, by decide, by decide⟩,
    EstablishProtocol_rejects_out_of_range (NewAcp [] [[5, 0]]) 1 3 (by decide) (by decide) 5
      (by decide) [] (by decide) (by decide)⟩

/-- Fact: `Connect` when the decoded name differs.  For every input from which
`GetString` decodes a name different from the expected name (which need not be
the string the peer sent), `Connect`
returns a non-nil error, the whole output of the call is the one byte 0x01,
and the reader is left exactly as it was right after the peer name was decoded:
no later input byte is consumed and no protocol version is read or written. -/
theorem Connect_name_mismatch_short_circuits (a : Acp) (name acpName : List Byte) (a1 : Acp)
    (min max : Int) (hget : a.GetString = Outcome.ret acpName a1) (hne : acpName ≠ name) :
    ∃ a2, a.Connect name min max = Outcome.ret (some "Error verify connection") a2 ∧
      a2.w.out.flatten = a.w.stream ++ [1] ∧ a2.w.buf = [] ∧ a2.r = a1.r := by
  obtain ⟨hw, _⟩ := Acp.GetString_w a acpName a1 hget
  obtain ⟨h1, h2, h3, _⟩ := Acp.PutBool_spec a1 false
  have hdec : decide (acpName = name) = false := decide_eq_false hne
  refine ⟨a1.PutBool false, ?_, ?_, h2, h3⟩
  · simp [Acp.Connect, Acp.VerifyConnection, hget, hdec]
  · rw [h1, hw]; rfl

theorem Connect_name_mismatch_short_circuits_witness :
    ((NewAcp [] [[2, 0], [79, 75], [2, 0]]).GetString
        = Outcome.ret [79, 75] (NewAcp [] [[2, 0]]) ∧
      ([79, 75] : List Byte) ≠ [72, 79, 83, 84]) ∧
    ∃ a2, (NewAcp [] [[2, 0], [79, 75], [2, 0]]).Connect [72, 79, 83, 84] 1 3
        = Outcome.ret (some "Error verify connection") a2 ∧
      a2.w.out.flatten = (NewAcp [] [[2, 0], [79, 75], [2, 0]]).w.stream ++ [1] ∧
      a2.w.buf = [] ∧ a2.r = (NewAcp [] [[2, 0]]).r :=
  ⟨⟨by decide, by decide⟩,
    Connect_name_mismatch_short_circuits (NewAcp [] [[2, 0], [79, 75], [2, 0]]) [72, 79, 83, 84]
      [79, 75] (NewAcp [] [[2, 0]]) 1 3 (by decide) (by decide)⟩

/-! ## `Connect` as a whole -/

/-- Fact: `EstablishProtocol` once the proposed version `p` is decoded. -/
theorem Acp.EstablishProtocol_of_GetUshort (a a1 : Acp) (min max : Int) (p : Nat)
    (hus : a.GetUshort = Outcome.ret p a1) :
    a.EstablishProtocol min max
      = if (p : Int) < min ∨ (p : Int) > max then
          Outcome.ret false
            (((a1.PutBool false).PutUshort (min % 65536).toNat).PutUshort (max % 65536).toNat)
        else Outcome.ret true (a1.PutBool true) := by
  simp only [Acp.EstablishProtocol, hus]

/-- Fact: `Connect` once the peer name is decoded and is not the expected one. -/
theorem Acp.Connect_of_mismatch (a a1 : Acp) (name acpName : List Byte) (min max : Int)
    (hget : a.GetString = Outcome.ret acpName a1) (hne : acpName ≠ name) :
    a.Connect name min max = Outcome.ret (some "Error verify connection") (a1.PutBool false) := by
  have hdec : decide (acpName = name) = false := decide_eq_false hne
  simp [Acp.Connect, Acp.VerifyConnection, hget, hdec]

/-- Fact: `Connect` once the peer name is decoded, is the expected one, and the
proposed version `p` is decoded. -/
theorem Acp.Connect_of_match (a a1 a2 : Acp) (name : List Byte) (min max : Int) (p : Nat)
    (hget : a.GetString = Outcome.ret name a1)
    (hus : (a1.PutBool true).GetUshort = Outcome.ret p a2) :
    a.Connect name min max
      = if (p : Int) < min ∨ (p : Int) > max then
          Outcome.ret (some "Error establish protocol")
            (((a2.PutBool false).PutUshort (min % 65536).toNat).PutUshort (max % 65536).toNat)
        else Outcome.ret none (a2.PutBool true) := by
  have hest := Acp.EstablishProtocol_of_GetUshort (a1.PutBool true) a2 min max p hus
  by_cases hc : (p : Int) < min ∨ (p : Int) > max
  · rw [if_pos hc] at hest
    simp [Acp.Connect, Acp.VerifyConnection, hget, hest, hc]
  · rw [if_neg hc] at hest
    simp [Acp.Connect, Acp.VerifyConnection, hget, hest, hc]

/-- Fact: `Connect` in terms of the decoded name.  For every input from
which `GetString` decodes a name (which need not be the string the peer sent)
and which then holds the two bytes of a
version `p`, `Connect name min max` returns, and its error is nil if and only
if the peer name equals `name` and `min ≤ p ≤ max`; when the error is nil the
whole output of the call is exactly the two bytes 0x00, 0x00. -/
theorem Connect_succeeds_iff_both_steps (a a1 : Acp) (name acpName : List Byte)
    (min max : Int) (p : Nat) (hp : p < 65536) (tl : List Byte)
    (hget : a.GetString = Outcome.ret acpName a1)
    (hin : a1.r.Holds (putUint16 p ++ tl)) :
    ∃ e a2, a.Connect name min max = Outcome.ret e a2 ∧
      (e = none ↔ (acpName = name ∧ min ≤ (p : Int) ∧ (p : Int) ≤ max)) ∧
      (e ≠ none ∨ (a2.w.out.flatten = a.w.stream ++ [0, 0] ∧ a2.w.buf = [])) := by
  by_cases hname : acpName = name
  · subst hname
    obtain ⟨hw, _⟩ := Acp.GetString_w a acpName a1 hget
    obtain ⟨h1, h2, h3, _⟩ := Acp.PutBool_spec a1 true
    have hin1 : (a1.PutBool true).r.Holds (putUint16 p ++ tl) := by rw [h3]; exact hin
    obtain ⟨a2, hus, _, hw2, _⟩ :=
      Acp.GetUshort_of_Holds (a1.PutBool true) (Fin.ofNat (p % 256))
        (Fin.ofNat (p / 256 % 256)) tl hin1
    rw [putUint16_val p hp] at hus
    have hconn := Acp.Connect_of_match a a1 a2 acpName min max p hget hus
    by_cases hc : (p : Int) < min ∨ (p : Int) > max
    · rw [if_pos hc] at hconn
      refine ⟨_, _, hconn, ?_, Or.inl (by simp)⟩
      constructor
      · intro h; cases h
      · intro h; omega
    · rw [if_neg hc] at hconn
      obtain ⟨k1, k2, _, _⟩ := Acp.PutBool_spec a2 true
      refine ⟨_, _, hconn, ?_, Or.inr ⟨?_, k2⟩⟩
      · constructor
        · intro _; exact ⟨rfl, by omega, by omega⟩
        · intro _; rfl
      · rw [k1, hw2, Writer.stream_of_buf_nil _ h2, h1, hw]
        simp
  · refine ⟨_, _, Acp.Connect_of_mismatch a a1 name acpName min max hget hname, ?_,
      Or.inl (by simp)⟩
    constructor
    · intro h; cases h
    · intro h; exact absurd h.1 hname

theorem Connect_succeeds_iff_both_steps_witness :
    (2 < 65536 ∧
      (NewAcp [] [[1, 0], [72], [2, 0]]).GetString = Outcome.ret [72] (NewAcp [] [[2, 0]]) ∧
      Reader.Holds (NewAcp [] [[2, 0]]).r (putUint16 2 ++ [])) ∧
    ∃ e a2, (NewAcp [] [[1, 0], [72], [2, 0]]).Connect [72] 1 3 = Outcome.ret e a2 ∧
      (e = none ↔ (([72] : List Byte) = [72] ∧ (1 : Int) ≤ ((2 : Nat) : Int) ∧
        ((2 : Nat) : Int) ≤ (3 : Int))) ∧
      (e ≠ none ∨ (a2.w.out.flatten = (NewAcp [] [[1, 0], [72], [2, 0]]).w.stream ++ [0, 0] ∧
        a2.w.buf = [])) :=
  ⟨⟨by decide, by decide, by decide⟩,
    Connect_succeeds_iff_both_steps (NewAcp [] [[1, 0], [72], [2, 0]]) (NewAcp [] [[2, 0]])
      [72] [72] 1 3 2 (by decide) [] (by decide) (by decide)⟩

/-- Fact: `Connect` when the decoded peer name is the expected one and the
reader then holds the two bytes of a version outside `[min, max]`. -/
theorem Acp.Connect_out_of_range (a a1 : Acp) (name : List Byte) (min max : Int) (p : Nat)
    (hp : p < 65536) (tl : List Byte) (hget : a.GetString = Outcome.ret name a1)
    (hin : a1.r.Holds (putUint16 p ++ tl)) (hout : (p : Int) < min ∨ (p : Int) > max) :
    ∃ a2, a.Connect name min max = Outcome.ret (some "Error establish protocol") a2 := by
  obtain ⟨_, _, h3, _⟩ := Acp.PutBool_spec a1 true
  have hin1 : (a1.PutBool true).r.Holds (putUint16 p ++ tl) := by rw [h3]; exact hin
  obtain ⟨a2, hus, _, _, _⟩ :=
    Acp.GetUshort_of_Holds (a1.PutBool true) (Fin.ofNat (p % 256))
      (Fin.ofNat (p / 256 % 256)) tl hin1
  rw [putUint16_val p hp] at hus
  have hconn := Acp.Connect_of_match a a1 a2 name min max p hget hus
  rw [if_pos hout] at hconn
  exact ⟨_, hconn⟩

/-- C12, the claim as stated fails: the peer proposes 5 for the range [1, 3] in one
run and 9 for the range [2, 4] in another; both runs return the same error,
the text "Error establish protocol", so neither the proposed version nor the
range can be recovered from it. -/
theorem Connect_out_of_range_error_carries_no_data :
    ∃ a2 a3,
      (NewAcp [] [[1, 0], [72], [5, 0]]).Connect [72] 1 3
        = Outcome.ret (some "Error establish protocol") a2 ∧
      (NewAcp [] [[1, 0], [72], [9, 0]]).Connect [72] 2 4
        = Outcome.ret (some "Error establish protocol") a3 := by
  obtain ⟨a2, h2⟩ := Acp.Connect_out_of_range (NewAcp [] [[1, 0], [72], [5, 0]])
    (NewAcp [] [[5, 0]]) [72] 1 3 5 (by decide) [] (by decide) (by decide) (by decide)
  obtain ⟨a3, h3⟩ := Acp.Connect_out_of_range (NewAcp [] [[1, 0], [72], [9, 0]])
    (NewAcp [] [[9, 0]]) [72] 2 4 9 (by decide) [] (by decide) (by decide) (by decide)
  exact ⟨a2, a3, h2, h3⟩

/-- C12, amended. When `Connect` fails because the peer proposed a version `p`
outside `[min, max]`, the error returned is the fixed error with the text
"Error establish protocol", the same for every `p`, `min` and `max`; it differs
from the error returned on a name mismatch, "Error verify connection". -/
theorem Connect_out_of_range_error_fixed (a a1 : Acp) (name acpName : List Byte)
    (min max : Int) (p : Nat) (hp : p < 65536) (tl : List Byte)
    (hget : a.GetString = Outcome.ret name a1)
    (hin : a1.r.Holds (putUint16 p ++ tl)) (hout : (p : Int) < min ∨ (p : Int) > max)
    (b b1 : Acp) (hgetb : b.GetString = Outcome.ret acpName b1) (hne : acpName ≠ name) :
    ∃ a2 b2 e1 e2, a.Connect name min max = Outcome.ret (some e1) a2 ∧
      b.Connect name min max = Outcome.ret (some e2) b2 ∧
      e1 = "Error establish protocol" ∧ e2 = "Error verify connection" ∧ e1 ≠ e2 := by
  obtain ⟨a2, h2⟩ := Acp.Connect_out_of_range a a1 name min max p hp tl hget hin hout
  have hb := Acp.Connect_of_mismatch b b1 name acpName min max hgetb hne
  exact ⟨a2, _, _, _, h2, hb, rfl, rfl, by decide⟩

theorem Connect_out_of_range_error_fixed_witness :
    (5 < 65536 ∧
      (NewAcp [] [[1, 0], [72], [5, 0]]).GetString = Outcome.ret [72] (NewAcp [] [[5, 0]]) ∧
      Reader.Holds (NewAcp [] [[5, 0]]).r (putUint16 5 ++ []) ∧
      (((5 : Nat) : Int) < (1 : Int) ∨ ((5 : Nat) : Int) > (3 : Int)) ∧
      (NewAcp [] [[1, 0], [79]]).GetString = Outcome.ret [79] (NewAcp [] []) ∧
      ([79] : List Byte) ≠ [72]) ∧
    ∃ a2 b2 e1 e2,
      (NewAcp [] [[1, 0], [72], [5, 0]]).Connect [72] 1 3 = Outcome.ret (some e1) a2 ∧
      (NewAcp [] [[1, 0], [79]]).Connect [72] 1 3 = Outcome.ret (some e2) b2 ∧
      e1 = "Error establish protocol" ∧ e2 = "Error verify connection" ∧ e1 ≠ e2 :=
  ⟨⟨by decide, by decide, by decide, by decide, by decide, by decide⟩,
    Connect_out_of_range_error_fixed (NewAcp [] [[1, 0], [72], [5, 0]]) (NewAcp [] [[5, 0]])
      [72] [79] 1 3 5 (by decide) [] (by decide) (by decide) (by decide)
      (NewAcp [] [[1, 0], [79]]) (NewAcp [] []) (by decide) (by decide)⟩

/-! ## Flushing, and the remaining decoders -/

/-- C13. Every Put flushes: for every starting state and every call of `PutBool`,
`PutUshort` or `PutString`, when the call returns no byte is pending in the
write buffer, and the output file has received every byte handed to the writer
before the call (what it had received, then what was pending) followed by
exactly the bytes of the value: one byte for a Bool, the low and the high byte
for a UInt16, the two bytes of the length and then the bytes for a string. -/
theorem Put_operations_flush (a : Acp) (b : Bool) (v : Nat) (s : List Byte) :
    ((a.PutBool b).w.buf = [] ∧
      (a.PutBool b).w.out.flatten = a.w.out.flatten ++ a.w.buf ++ [if b then 0 else 1]) ∧
    ((a.PutUshort v).w.buf = [] ∧
      (a.PutUshort v).w.out.flatten
        = a.w.out.flatten ++ a.w.buf ++ [Fin.ofNat (v % 256), Fin.ofNat (v / 256 % 256)]) ∧
    ((a.PutString s).w.buf = [] ∧
      (a.PutString s).w.out.flatten
        = a.w.out.flatten ++ a.w.buf
          ++ [Fin.ofNat (s.length % 65536 % 256), Fin.ofNat (s.length % 65536 / 256 % 256)]
          ++ s) := by
  obtain ⟨h1, h2, _, _⟩ := Acp.PutBool_spec a b
  obtain ⟨k1, k2, _, _⟩ := Acp.PutUshort_spec a v
  obtain ⟨l1, l2, _, _⟩ := Acp.PutString_spec a s
  exact ⟨⟨h2, h1⟩, ⟨k2, k1⟩, ⟨l2, l1⟩⟩

/-- Fact: `GetShort` and `GetUshort` decode the same two bytes; `GetShort` reads
them as two's complement. -/
theorem Acp.GetShort_of_Holds (a : Acp) (b0 b1 : Byte) (tl : List Byte)
    (hb : a.r.Holds (b0 :: b1 :: tl)) :
    ∃ a1, a.GetShort = Outcome.ret
        (if b0.val + 256 * b1.val < 32768 then ((b0.val + 256 * b1.val : Nat) : Int)
          else ((b0.val + 256 * b1.val : Nat) : Int) - 65536) a1 ∧
      a.GetUshort = Outcome.ret (b0.val + 256 * b1.val) a1 ∧ a1.r.Holds tl ∧ a1.w = a.w := by
  obtain ⟨a1, hnum, hb1, hw, _⟩ :=
    Acp.ReadNumber_of_Holds a (b0 :: b1 :: tl) 2 hb (by simp)
  refine ⟨a1, ?_, ?_, by simpa using hb1, hw⟩
  · simp [Acp.GetShort, hnum, uint16LE]
  · simp [Acp.GetUshort, hnum, uint16LE]

/-- C14. `GetShort` decodes signed 16-bit little-endian: for every two input bytes
`b0`, `b1` (followed by anything, cut into reads in any way), `GetShort` returns
`b0 + 256*b1` if that is below 32768 and `b0 + 256*b1 - 65536` otherwise; the
result lies in [-32768, 32767] and is congruent modulo 65536 to what `GetUshort`
returns on the same input; exactly the two bytes are consumed. -/
theorem GetShort_twos_complement (a : Acp) (b0 b1 : Byte) (tl : List Byte)
    (hb : a.r.Holds (b0 :: b1 :: tl)) :
    ∃ (v : Int) (u : Nat) (a1 : Acp), a.GetShort = Outcome.ret v a1 ∧
      a.GetUshort = Outcome.ret u a1 ∧ u = b0.val + 256 * b1.val ∧
      v = (if u < 32768 then (u : Int) else (u : Int) - 65536) ∧
      -32768 ≤ v ∧ v ≤ 32767 ∧ v % 65536 = (u : Int) ∧ a1.r.Holds tl := by
  obtain ⟨a1, hs, hu, hholds, _⟩ := Acp.GetShort_of_Holds a b0 b1 tl hb
  have h0 := b0.isLt
  have h1 := b1.isLt
  refine ⟨_, _, a1, hs, hu, rfl, rfl, ?_, ?_, ?_, hholds⟩
  · split <;> omega
  · split <;> omega
  · split <;> omega

theorem GetShort_twos_complement_witness :
    Reader.Holds (NewAcp [] [[254], [255, 7]]).r [254, 255, 7] ∧
    ∃ (v : Int) (u : Nat) (a1 : Acp), (NewAcp [] [[254], [255, 7]]).GetShort = Outcome.ret v a1 ∧
      (NewAcp [] [[254], [255, 7]]).GetUshort = Outcome.ret u a1 ∧
      u = (254 : Byte).val + 256 * (255 : Byte).val ∧
      v = (if u < 32768 then (u : Int) else (u : Int) - 65536) ∧
      -32768 ≤ v ∧ v ≤ 32767 ∧ v % 65536 = (u : Int) ∧ a1.r.Holds [7] :=
  ⟨by decide, GetShort_twos_complement (NewAcp [] [[254], [255, 7]]) 254 255 [7] (by decide)⟩

/-- C15. `GetUint` decodes unsigned 32-bit little-endian: for every four input
bytes `b0..b3` (followed by anything, cut into reads in any way), `GetUint`
consumes exactly those 4 bytes and returns
`b0 + 256*b1 + 65536*b2 + 16777216*b3`, a value in [0, 2^32 - 1]. -/
theorem GetUint_little_endian (a : Acp) (b0 b1 b2 b3 : Byte) (tl : List Byte)
    (hb : a.r.Holds (b0 :: b1 :: b2 :: b3 :: tl)) :
    ∃ a1, a.GetUint
        = Outcome.ret (b0.val + 256 * b1.val + 65536 * b2.val + 16777216 * b3.val) a1 ∧
      b0.val + 256 * b1.val + 65536 * b2.val + 16777216 * b3.val ≤ 2 ^ 32 - 1 ∧
      a1.r.Holds tl ∧ a1.w = a.w := by
  obtain ⟨a1, hnum, hb1, hw, _⟩ :=
    Acp.ReadNumber_of_Holds a (b0 :: b1 :: b2 :: b3 :: tl) 4 hb (by simp)
  have h0 := b0.isLt
  have h1 := b1.isLt
  have h2 := b2.isLt
  have h3 := b3.isLt
  refine ⟨a1, ?_, ?_, by simpa using hb1, hw⟩
  · simp [Acp.GetUint, hnum, uint32LE]
  · norm_num; omega

theorem GetUint_little_endian_witness :
    Reader.Holds (NewAcp [] [[1, 2, 3], [255, 9]]).r [1, 2, 3, 255, 9] ∧
    ∃ a1, (NewAcp [] [[1, 2, 3], [255, 9]]).GetUint
        = Outcome.ret ((1 : Byte).val + 256 * (2 : Byte).val + 65536 * (3 : Byte).val
            + 16777216 * (255 : Byte).val) a1 ∧
      (1 : Byte).val + 256 * (2 : Byte).val + 65536 * (3 : Byte).val
        + 16777216 * (255 : Byte).val ≤ 2 ^ 32 - 1 ∧
      a1.r.Holds [9] ∧ a1.w = (NewAcp [] [[1, 2, 3], [255, 9]]).w :=
  ⟨by decide, GetUint_little_endian (NewAcp [] [[1, 2, 3], [255, 9]]) 1 2 3 255 [9] (by decide)⟩

/-! ## Fixed-width decoding of a short input -/

/-- A reader that holds no byte reports end-of-file to a `Read` of at least one
byte. -/
theorem Reader.Read_of_Holds_nil (b : Reader) (k : Nat) (hb : b.Holds []) (hk : k ≠ 0) :
    ∃ b1, b.Read k = ([], some RdErr.EOF, b1) := by
  obtain ⟨herr, hchunks, hbytes⟩ := hb
  have hbuf : b.buf = [] := (List.append_eq_nil.mp hbytes).1
  have hrd : b.rd = [] := by
    cases hr : b.rd with
    | nil => rfl
    | cons c rest =>
      rw [hr] at hchunks hbytes
      have hc : c ≠ [] := hchunks c (List.mem_cons_self _ _)
      have h2 := (List.append_eq_nil.mp hbytes).2
      rw [List.flatten_cons] at h2
      exact absurd (List.append_eq_nil.mp h2).1 hc
  by_cases hbig : defaultBufSize ≤ k
  · exact ⟨Reader.mk [] [] none, by simp [Reader.Read, hk, hbuf, herr, hbig, hrd, fileRead]⟩
  · exact ⟨Reader.mk [] [] none, by simp [Reader.Read, hk, hbuf, herr, hbig, hrd, fileRead]⟩

/-- The loop of `io.ReadAtLeast` on a reader holding fewer than `need` bytes gets
all of them and stops on end-of-file. -/
theorem readAtLeastLoop_of_short (fuel : Nat) :
    ∀ (b : Reader) (bytes : List Byte) (need : Nat) (acc : List Byte),
      b.Holds bytes → bytes.length < need → need < fuel →
      ∃ b1, readAtLeastLoop fuel b need acc = some (acc ++ bytes, some RdErr.EOF, b1) := by
  induction fuel with
  | zero => intro b bytes need acc _ _ h; omega
  | succ f ih =>
    intro b bytes need acc hb hlen hfuel
    have hz : need ≠ 0 := by omega
    by_cases hnil : bytes = []
    · subst hnil
      obtain ⟨b1, hread⟩ := Reader.Read_of_Holds_nil b need hb hz
      exact ⟨b1, by simp [readAtLeastLoop, hz, hread]⟩
    · obtain ⟨data, b1, hread, hdne, hdk, hdata, hb1⟩ :=
        Reader.Read_of_Holds b bytes need hb (by omega) hnil
      have hdpos : 0 < data.length := List.length_pos.mpr hdne
      have hdlen : data.length ≤ bytes.length := by
        have := congrArg List.length hdata
        rw [List.length_take] at this
        omega
      have hlen1 : (bytes.drop data.length).length < need - data.length := by
        rw [List.length_drop]; omega
      obtain ⟨b2, hloop⟩ :=
        ih b1 (bytes.drop data.length) (need - data.length) (acc ++ data) hb1 hlen1 (by omega)
      refine ⟨b2, ?_⟩
      have hjoin : data ++ bytes.drop data.length = bytes := by
        conv_lhs => rw [hdata]
        simp only [List.length_take, List.take_append_drop, Nat.min_eq_left hdlen]
      simp only [readAtLeastLoop, hz, if_false, hread, hloop, List.append_assoc, hjoin]

/-- Fact: `io.ReadFull` of `n` bytes on a reader holding fewer than `n` bytes
returns an error. -/
theorem ReadFull_of_short (b : Reader) (bytes : List Byte) (n : Nat)
    (hb : b.Holds bytes) (hn : bytes.length < n) :
    ∃ e b1, ReadFull b n = some (bytes, some e, b1) := by
  obtain ⟨b1, hloop⟩ := readAtLeastLoop_of_short (n + 1) b bytes n [] hb hn (by omega)
  have hl : ¬ n ≤ bytes.length := by omega
  by_cases hpos : 0 < bytes.length
  · exact ⟨RdErr.ErrUnexpectedEOF, b1, by simp [ReadFull, hloop, hl, hpos]⟩
  · exact ⟨RdErr.EOF, b1, by simp [ReadFull, hloop, hl, hpos]⟩

/-- Fact: `ReadNumber` of `n` bytes on a reader holding fewer than `n` bytes ends
the process through `log.Fatal`. -/
theorem Acp.ReadNumber_of_short (a : Acp) (bytes : List Byte) (n : Nat)
    (hb : a.r.Holds bytes) (hn : bytes.length < n) :
    ∃ e a1, a.ReadNumber n = Outcome.fatal e a1 := by
  obtain ⟨e, b1, hfull⟩ := ReadFull_of_short a.r bytes n hb hn
  exact ⟨e, { a with r := b1 }, by simp [Acp.ReadNumber, hfull]⟩

/-- C16. Fixed-width decodes fail on short input: for every input that holds fewer
bytes than the field width and then ends (fewer than 2 for `GetUshort` and
`GetShort`, fewer than 4 for `GetUint`), however the bytes are cut into reads,
the decode ends in `log.Fatal` with an error and returns no number. -/
theorem fixed_width_decodes_fail_on_short_input (a : Acp) (bytes : List Byte)
    (hb : a.r.Holds bytes) (h2 : bytes.length < 2)
    (a4 : Acp) (bytes4 : List Byte) (hb4 : a4.r.Holds bytes4) (h4 : bytes4.length < 4) :
    (∃ e a1, a.GetUshort = Outcome.fatal e a1) ∧ (∃ e a1, a.GetShort = Outcome.fatal e a1) ∧
      (∃ e a1, a4.GetUint = Outcome.fatal e a1) := by
  obtain ⟨e, a1, hnum⟩ := Acp.ReadNumber_of_short a bytes 2 hb h2
  obtain ⟨e4, a5, hnum4⟩ := Acp.ReadNumber_of_short a4 bytes4 4 hb4 h4
  exact ⟨⟨e, a1, by simp [Acp.GetUshort, hnum]⟩, ⟨e, a1, by simp [Acp.GetShort, hnum]⟩,
    ⟨e4, a5, by simp [Acp.GetUint, hnum4]⟩⟩

theorem fixed_width_decodes_fail_on_short_input_witness :
    (Reader.Holds (NewAcp [] [[7]]).r [7] ∧ ([7] : List Byte).length < 2 ∧
      Reader.Holds (NewAcp [] [[1, 2], [3]]).r [1, 2, 3] ∧ ([1, 2, 3] : List Byte).length < 4) ∧
    ((∃ e a1, (NewAcp [] [[7]]).GetUshort = Outcome.fatal e a1) ∧
      (∃ e a1, (NewAcp [] [[7]]).GetShort = Outcome.fatal e a1) ∧
      (∃ e a1, (NewAcp [] [[1, 2], [3]]).GetUint = Outcome.fatal e a1)) :=
  ⟨⟨by decide, by decide, by decide, by decide⟩,
    fixed_width_decodes_fail_on_short_input (NewAcp [] [[7]]) [7] (by decide) (by decide)
      (NewAcp [] [[1, 2], [3]]) [1, 2, 3] (by decide) (by decide)⟩

/-! ## The loop of `EstablishProtocol`, the length prefix, and empty ranges -/

/-- Fact: `PutUshort` leaves the reader alone, also after `PutBool`. -/
theorem Acp.reject_reply_r (a : Acp) (x y : Nat) :
    (((a.PutBool false).PutUshort x).PutUshort y).r = a.r := by
  rw [(Acp.PutUshort_spec _ y).2.2.1, (Acp.PutUshort_spec _ x).2.2.1,
    (Acp.PutBool_spec a false).2.2.1]

/-- C17. `EstablishProtocol` terminates after decoding exactly one UInt16: for
every `min`, `max` and every input that holds at least 2 bytes, the `for` loop
makes exactly one pass through its body, whatever fuel it is given, the call
returns (the result being that of `EstablishProtocol`, accepted or rejected),
and exactly the first 2 input bytes are consumed. -/
theorem EstablishProtocol_single_pass (a : Acp) (min max : Int) (b0 b1 : Byte)
    (tl : List Byte) (hb : a.r.Holds (b0 :: b1 :: tl)) (fuel : Nat) :
    ∃ res a2, Acp.EstablishProtocolLoop (fuel + 1) a min max 0 = Outcome.ret (res, 1) a2 ∧
      a.EstablishProtocol min max = Outcome.ret res a2 ∧ a2.r.Holds tl := by
  obtain ⟨a1, hus, hholds, _, _⟩ := Acp.GetUshort_of_Holds a b0 b1 tl hb
  have hest := Acp.EstablishProtocol_of_GetUshort a a1 min max _ hus
  by_cases hc : ((b0.val + 256 * b1.val : Nat) : Int) < min
      ∨ ((b0.val + 256 * b1.val : Nat) : Int) > max
  · rw [if_pos hc] at hest
    refine ⟨false, _, ?_, hest, ?_⟩
    · simp only [Acp.EstablishProtocolLoop, Acp.EstablishProtocolBody, hus, hc, if_true]
    · rw [Acp.reject_reply_r]; exact hholds
  · rw [if_neg hc] at hest
    refine ⟨true, _, ?_, hest, ?_⟩
    · simp only [Acp.EstablishProtocolLoop, Acp.EstablishProtocolBody, hus, hc, if_false]
    · exact hholds

theorem EstablishProtocol_single_pass_witness :
    Reader.Holds (NewAcp [] [[5], [0, 6, 0]]).r [5, 0, 6, 0] ∧
    ∃ res a2, Acp.EstablishProtocolLoop (9 + 1) (NewAcp [] [[5], [0, 6, 0]]) 1 3 0
        = Outcome.ret (res, 1) a2 ∧
      (NewAcp [] [[5], [0, 6, 0]]).EstablishProtocol 1 3 = Outcome.ret res a2 ∧
      a2.r.Holds [6, 0] :=
  ⟨by decide, EstablishProtocol_single_pass (NewAcp [] [[5], [0, 6, 0]]) 1 3 5 0 [6, 0]
    (by decide) 9⟩

/-- C18. The length prefix of `PutString` wraps modulo 2^16: for every string `s`
of any byte length `L`, `PutString s` sends exactly `2 + L` bytes, namely the
low and the high byte of `L mod 65536` followed by all `L` bytes of `s`; the
prefix decodes to `L mod 65536`, which for `L > 65535` is smaller than the
number `L` of bytes that follow it. -/
theorem PutString_length_prefix_wraps (a : Acp) (s : List Byte) :
    (a.PutString s).w.buf = [] ∧
    (a.PutString s).w.out.flatten
      = a.w.stream ++ [Fin.ofNat (s.length % 65536 % 256), Fin.ofNat (s.length % 65536 / 256)]
        ++ s ∧
    (a.PutString s).w.out.flatten.length = a.w.stream.length + (2 + s.length) ∧
    uint16LE [Fin.ofNat (s.length % 65536 % 256), Fin.ofNat (s.length % 65536 / 256)]
      = s.length % 65536 ∧
    (s.length ≤ 65535 ∨ s.length % 65536 < s.length) := by
  obtain ⟨h1, h2, _, _⟩ := Acp.PutString_spec a s
  have hlt : s.length % 65536 < 65536 := Nat.mod_lt _ (by decide)
  have hhi : s.length % 65536 / 256 % 256 = s.length % 65536 / 256 :=
    Nat.mod_eq_of_lt (by omega)
  have hput : putUint16 (s.length % 65536)
      = [Fin.ofNat (s.length % 65536 % 256), Fin.ofNat (s.length % 65536 / 256)] := by
    simp only [putUint16, hhi]
  rw [hput] at h1
  refine ⟨h2, h1, ?_, ?_, ?_⟩
  · rw [h1]; simp only [List.length_append, List.length_cons, List.length_nil]; omega
  · rw [← hput]; exact uint16LE_putUint16 _ hlt
  · omega

/-- Fact: `fileRead k` delivers at most `k` bytes. -/
theorem fileRead_length_le (k : Nat) (rd : List (List Byte)) :
    (fileRead k rd).1.length ≤ k := by
  cases rd with
  | nil => simp [fileRead]
  | cons c rest =>
    by_cases hc : c = []
    · simp [fileRead, hc]
    · simp only [fileRead, hc, if_false, List.length_take]
      exact Nat.min_le_left _ _

/-- Fact: `Read` on a buffer of `k` bytes stores at most `k` bytes. -/
theorem Reader.Read_length_le (b : Reader) (k : Nat) : (b.Read k).1.length ≤ k := by
  by_cases hk : k = 0
  · by_cases hb : 0 < b.buf.length <;> simp [Reader.Read, hk, hb]
  · by_cases hbuf : b.buf = []
    · by_cases herr : b.err = none
      · by_cases hbig : defaultBufSize ≤ k
        · have hle := fileRead_length_le k b.rd
          rcases hf : fileRead k b.rd with ⟨data, e, rd1⟩
          rw [hf] at hle
          simpa [Reader.Read, hk, hbuf, herr, hbig, hf] using hle
        · rcases hf : fileRead defaultBufSize b.rd with ⟨data, e, rd1⟩
          by_cases hd : data = []
          · simp [Reader.Read, hk, hbuf, herr, hbig, hf, hd]
          · simp only [Reader.Read, hk, hbuf, herr, hbig, hf, if_false, if_true, ne_eq,
              not_true_eq_false, List.length_eq_zero, hd, List.length_take]
            exact Nat.min_le_left _ _
      · simp [Reader.Read, hk, hbuf, herr]
    · simp only [Reader.Read, hk, hbuf, if_false, List.length_take]
      exact Nat.min_le_left _ _

/-- Fact: what `GetString` returns, in terms of the prefix decoded by `GetUshort`
and of the single `Read` made by `readBytes`. -/
theorem Acp.GetString_ret (a : Acp) (s : List Byte) (a2 : Acp)
    (hret : a.GetString = Outcome.ret s a2) :
    ∃ N a1, a.GetUshort = Outcome.ret N a1 ∧
      s = (a1.r.Read N).1 ++ List.replicate (N - (a1.r.Read N).1.length) 0 := by
  unfold Acp.GetString at hret
  split at hret
  · rename_i N a1 hus
    refine ⟨N, a1, hus, ?_⟩
    split at hret
    · cases hret
    · rename_i buf a3 hrb
      cases hret
      unfold Acp.readBytes at hrb
      rcases hread : a1.r.Read N with ⟨data, err, r1⟩
      rw [hread] at hrb
      simp only [] at hrb
      split at hrb
      · rename_i hcond
        have h2 := congrArg (fun t => t.2.1) hrb
        simp only [] at h2
        cases err with
        | none => exact absurd rfl hcond.1
        | some e => cases h2
      · have h1 := congrArg (fun t => t.1) hrb
        simp only [] at h1
        exact h1.symm
  · cases hret
  · cases hret

/-- C19. The length of the result of `GetString` always equals the decoded
prefix: for every input on which `GetString` returns, the returned string has
exactly `N` bytes, `N` being the prefix decoded by `GetUshort`; it is made of
the bytes delivered by the one `Read` that follows, at most `N` of them, and of
zero bytes in the positions that were not delivered. -/
theorem GetString_length_is_decoded_prefix (a : Acp) (s : List Byte) (a2 : Acp)
    (hret : a.GetString = Outcome.ret s a2) :
    ∃ N a1, a.GetUshort = Outcome.ret N a1 ∧ s.length = N ∧
      (a1.r.Read N).1.length ≤ N ∧
      s = (a1.r.Read N).1 ++ List.replicate (N - (a1.r.Read N).1.length) 0 := by
  obtain ⟨N, a1, hus, hs⟩ := Acp.GetString_ret a s a2 hret
  have hle := Reader.Read_length_le a1.r N
  refine ⟨N, a1, hus, ?_, hle, hs⟩
  have hlen := congrArg List.length hs
  rw [List.length_append, List.length_replicate] at hlen
  omega

theorem GetString_length_is_decoded_prefix_witness :
    (NewAcp [] [[3, 0, 97]]).GetString = Outcome.ret [97, 0, 0] (NewAcp [] []) ∧
    ∃ N a1, (NewAcp [] [[3, 0, 97]]).GetUshort = Outcome.ret N a1 ∧
      ([97, 0, 0] : List Byte).length = N ∧ (a1.r.Read N).1.length ≤ N ∧
      ([97, 0, 0] : List Byte)
        = (a1.r.Read N).1 ++ List.replicate (N - (a1.r.Read N).1.length) 0 :=
  ⟨by decide, GetString_length_is_decoded_prefix (NewAcp [] [[3, 0, 97]]) [97, 0, 0]
    (NewAcp [] []) (by decide)⟩

/-- Fact: `EstablishProtocol` returns true only for a non-empty range. -/
theorem Acp.EstablishProtocol_true (a a2 : Acp) (min max : Int)
    (h : a.EstablishProtocol min max = Outcome.ret true a2) : min ≤ max := by
  unfold Acp.EstablishProtocol at h
  split at h
  · simp only [] at h
    split at h
    · cases h
    · rename_i hc
      omega
  · cases h
  · cases h

/-- Fact: `Connect` returns a nil error only after `EstablishProtocol` returned
true. -/
theorem Acp.Connect_none (b b2 : Acp) (name : List Byte) (min max : Int)
    (h : b.Connect name min max = Outcome.ret none b2) :
    ∃ b1 : Acp, b1.EstablishProtocol min max = Outcome.ret true b2 := by
  unfold Acp.Connect at h
  rcases hv : b.VerifyConnection name with ⟨res, b1⟩ | ⟨e, b1⟩ | _
  · rw [hv] at h
    cases res with
    | false => simp at h
    | true =>
      rcases hest : b1.EstablishProtocol min max with ⟨res2, b3⟩ | ⟨e, b3⟩ | _
      · cases res2 with
        | false => simp [hest] at h
        | true =>
          simp [hest] at h
          exact ⟨b1, by rw [hest, h]⟩
      · simp [hest] at h
      · simp [hest] at h
  · rw [hv] at h; simp at h
  · rw [hv] at h; simp at h

/-- C20. An empty version range rejects every proposal: for every `min > max` and
every UInt16 version `p` proposed by the peer, `EstablishProtocol min max`
returns false and what it sends starts with the rejection byte 0x01; and
`Connect` with `min > max` never returns a nil error, whatever the state and
the name. -/
theorem empty_range_rejects_every_proposal (a : Acp) (min max : Int) (hgt : max < min)
    (p : Nat) (hp : p < 65536) (tl : List Byte) (hin : a.r.Holds (putUint16 p ++ tl)) :
    (∃ a2 rest, a.EstablishProtocol min max = Outcome.ret false a2 ∧
      a2.w.out.flatten = a.w.stream ++ 1 :: rest) ∧
    (∀ (b : Acp) (name : List Byte) (b2 : Acp),
      b.Connect name min max ≠ Outcome.ret none b2) := by
  constructor
  · obtain ⟨a1, hus, _, hw, _⟩ :=
      Acp.GetUshort_of_Holds a (Fin.ofNat (p % 256)) (Fin.ofNat (p / 256 % 256)) tl hin
    rw [putUint16_val p hp] at hus
    have hest := Acp.EstablishProtocol_of_GetUshort a a1 min max p hus
    have hc : (p : Int) < min ∨ (p : Int) > max := by omega
    rw [if_pos hc] at hest
    obtain ⟨h1, h2, _, _⟩ := Acp.PutBool_spec a1 false
    obtain ⟨k1, k2, _, _⟩ := Acp.PutUshort_spec (a1.PutBool false) (min % 65536).toNat
    obtain ⟨l1, _, _, _⟩ :=
      Acp.PutUshort_spec ((a1.PutBool false).PutUshort (min % 65536).toNat) (max % 65536).toNat
    refine ⟨_, putUint16 (min % 65536).toNat ++ putUint16 (max % 65536).toNat, hest, ?_⟩
    rw [l1, Writer.stream_of_buf_nil _ k2, k1, Writer.stream_of_buf_nil _ h2, h1, hw]
    simp
  · intro b name b2 hconn
    obtain ⟨b1, hest⟩ := Acp.Connect_none b b2 name min max hconn
    have := Acp.EstablishProtocol_true b1 b2 min max hest
    omega

theorem empty_range_rejects_every_proposal_witness :
    ((2 : Int) < 3 ∧ 2 < 65536 ∧ Reader.Holds (NewAcp [] [[2, 0]]).r (putUint16 2 ++ [])) ∧
    ((∃ a2 rest, (NewAcp [] [[2, 0]]).EstablishProtocol 3 2 = Outcome.ret false a2 ∧
      a2.w.out.flatten = (NewAcp [] [[2, 0]]).w.stream ++ 1 :: rest) ∧
    (∀ (b : Acp) (name : List Byte) (b2 : Acp), b.Connect name 3 2 ≠ Outcome.ret none b2)) :=
  ⟨⟨by decide, by decide, by decide⟩,
    empty_range_rejects_every_proposal (NewAcp [] [[2, 0]]) 3 2 (by decide) 2 (by decide) []
      (by decide)⟩

/-! ## What the single `Read` of `readBytes` does to the round trip and to `Connect` -/

/-- C2, the code at the failing input: `PutString` of the two bytes 0x61 0x62
writes 02 00 61 62.  Presented as the input in two reads, 02 00 61 and then 62,
these bytes are not read back: `GetString` returns 0x61 0x00 and leaves the
read of 0x62 unconsumed. -/
theorem GetString_PutString_cut_not_read_back :
    ((NewAcp [] []).PutString [97, 98]).w.out.flatten = [2, 0, 97, 98] ∧
    Reader.Holds (NewAcp [] [[2, 0, 97], [98]]).r [2, 0, 97, 98] ∧
    (NewAcp [] [[2, 0, 97], [98]]).GetString = Outcome.ret [97, 0] (NewAcp [] [[98]]) ∧
    ([97, 0] : List Byte) ≠ [97, 98] := by
  decide

/-- C10, the code at the failing input: the input holds the prefix 2, the peer
string 0x61 0x02 and then 00 00, delivered in the reads 02 00, 61, 02 00 00,
and the expected name is 0x61 0x00.  The peer string differs from the expected
name, yet `Connect` returns a nil error: the name is decoded as 0x61 0x00, the
reply is 0x00, the bytes 02 00 are read as the proposed version and a second
0x00 is sent. -/
theorem Connect_mismatch_accepted_after_short_read :
    Reader.Holds (NewAcp [] [[2, 0], [97], [2, 0, 0]]).r ([2, 0] ++ [97, 2] ++ [0, 0]) ∧
    ([97, 2] : List Byte) ≠ [97, 0] ∧
    (NewAcp [] [[2, 0], [97], [2, 0, 0]]).Connect [97, 0] 1 3
      = Outcome.ret none
          { Name := [], r := { rd := [], buf := [0], err := none },
            w := { out := [[0], [0]], buf := [] } } := by
  decide

/-- C11, the code at the failing inputs.  First run: the input holds the prefix 4,
the peer string HOST and the version 2, delivered in the reads 04 00, 48 4f,
53 54, 02 00; the expected name is HOST and the range is [1, 3], yet `Connect`
returns the error "Error verify connection", having sent 0x01.  Second run: the
input holds the prefix 2, the peer string 0x4f 0x05 and the version 5, delivered
in the reads 02 00, 4f, 05 05 00; the expected name is 0x4f 0x00 and the range
is [1, 1300], the peer string differs from the name, yet `Connect` returns a nil
error. -/
theorem Connect_result_depends_on_reads :
    (Reader.Holds (NewAcp [] [[4, 0], [72, 79], [83, 84], [2, 0]]).r
        ([4, 0] ++ [72, 79, 83, 84] ++ [2, 0]) ∧
      (NewAcp [] [[4, 0], [72, 79], [83, 84], [2, 0]]).Connect [72, 79, 83, 84] 1 3
        = Outcome.ret (some "Error verify connection")
            { Name := [], r := { rd := [[83, 84], [2, 0]], buf := [], err := none },
              w := { out := [[1]], buf := [] } }) ∧
    (Reader.Holds (NewAcp [] [[2, 0], [79], [5, 5, 0]]).r ([2, 0] ++ [79, 5] ++ [5, 0]) ∧
      ([79, 5] : List Byte) ≠ [79, 0] ∧
      (NewAcp [] [[2, 0], [79], [5, 5, 0]]).Connect [79, 0] 1 1300
        = Outcome.ret none
            { Name := [], r := { rd := [], buf := [0], err := none },
              w := { out := [[0], [0]], buf := [] } }) := by
  decide

end Goworld
